import Mathlib

/-!
Verification development for the resumable batch keyword-categorization
engine in `cluster-new.py` (Signet-Clustering).

The Python source is shallowly embedded: records are explicit structures,
the response parser works over an executable JSON model, the batch loop is
a fold over the list of batch start indices, and all fallible Python
operations return `Except PyErr`.  File contents are modelled as
already-parsed row lists (CSV serialization is out of scope per the spec);
the external classification service is an oracle from request payloads to
optional response texts (`none` models a transport/service error).
-/

/-- Python exception kinds that the embedded code can raise. -/
inductive PyErr where
  | keyError (k : String)
  | typeError
  | valueError
  | jsonDecodeError
  | indexError
  | zeroDivisionError
  | osError
deriving DecidableEq, Repr

/-- JSON values as produced by `json.loads`.  Numbers keep their source
lexeme (the engine never does arithmetic on them); objects keep their
key-value pairs in parse order, with duplicate keys possible (lookup takes
the last occurrence, matching Python dict construction). -/
inductive Json where
  | null
  | bool (b : Bool)
  | num (lex : String)
  | str (s : String)
  | arr (xs : List Json)
  | obj (kvs : List (String × Json))

/-- JSON whitespace accepted by Python `json.loads` between tokens. -/
def jsonWs (c : Char) : Bool :=
  c = ' ' || c = '\t' || c = '\n' || c = '\r'

/-- Drop leading JSON whitespace. -/
def skipWs (cs : List Char) : List Char :=
  cs.dropWhile jsonWs

/-- Hexadecimal digit value. -/
def hexVal (c : Char) : Option Nat :=
  if '0' ≤ c ∧ c ≤ '9' then some (c.toNat - '0'.toNat)
  else if 'a' ≤ c ∧ c ≤ 'f' then some (c.toNat - 'a'.toNat + 10)
  else if 'A' ≤ c ∧ c ≤ 'F' then some (c.toNat - 'A'.toNat + 10)
  else none

/-- Single-character JSON string escapes. -/
def escChar (c : Char) : Option Char :=
  if c = '"' then some '"'
  else if c = '\\' then some '\\'
  else if c = '/' then some '/'
  else if c = 'n' then some '\n'
  else if c = 't' then some '\t'
  else if c = 'r' then some '\r'
  else if c = 'b' then some (Char.ofNat 8)
  else if c = 'f' then some (Char.ofNat 12)
  else none

/-- Parse the body of a JSON string after the opening quote; returns the
decoded characters and the remaining input after the closing quote.
Unescaped control characters are rejected (Python strict mode). -/
def parseStrChars : Nat → List Char → Option (List Char × List Char)
  | 0, _ => none
  | _, [] => none
  | _ + 1, '"' :: rest => some ([], rest)
  | fuel + 1, '\\' :: 'u' :: h1 :: h2 :: h3 :: h4 :: rest =>
    match hexVal h1, hexVal h2, hexVal h3, hexVal h4 with
    | some a, some b, some c, some d =>
      (parseStrChars fuel rest).map fun p =>
        (Char.ofNat (((a * 16 + b) * 16 + c) * 16 + d) :: p.1, p.2)
    | _, _, _, _ => none
  | fuel + 1, '\\' :: e :: rest =>
    match escChar e with
    | some ch => (parseStrChars fuel rest).map fun p => (ch :: p.1, p.2)
    | none => none
  | _ + 1, ['\\'] => none
  | fuel + 1, c :: rest =>
    if c.toNat < 32 then none
    else (parseStrChars fuel rest).map fun p => (c :: p.1, p.2)

/-- Parse a JSON number lexeme (grammar of the Python `json` module:
optional minus, integer part without leading zeros, optional fraction,
optional exponent).  Returns the lexeme and the remaining input. -/
def parseNumber (cs : List Char) : Option (String × List Char) :=
  let signAndRest : List Char × List Char :=
    match cs with
    | '-' :: r => (['-'], r)
    | _ => ([], cs)
  let sign := signAndRest.1
  let cs1 := signAndRest.2
  match cs1 with
  | [] => none
  | c :: _ =>
    if ¬ c.isDigit then none
    else
      let ipRest : List Char × List Char :=
        if c = '0' then (['0'], cs1.tail)
        else (cs1.takeWhile Char.isDigit, cs1.dropWhile Char.isDigit)
      let ip := ipRest.1
      let rest1 := ipRest.2
      let fpRest : List Char × List Char :=
        match rest1 with
        | '.' :: r =>
          let ds := r.takeWhile Char.isDigit
          if ds.isEmpty then ([], rest1)
          else ('.' :: ds, r.dropWhile Char.isDigit)
        | _ => ([], rest1)
      let fp := fpRest.1
      let rest2 := fpRest.2
      let epRest : List Char × List Char :=
        match rest2 with
        | e :: r =>
          if e = 'e' ∨ e = 'E' then
            let signedRest : List Char × List Char :=
              match r with
              | s :: r3 => if s = '+' ∨ s = '-' then ([s], r3) else ([], r)
              | [] => ([], r)
            let ds := signedRest.2.takeWhile Char.isDigit
            if ds.isEmpty then ([], rest2)
            else (e :: (signedRest.1 ++ ds), signedRest.2.dropWhile Char.isDigit)
          else ([], rest2)
        | [] => ([], rest2)
      some (String.mk (sign ++ ip ++ fp ++ epRest.1), epRest.2)

/-- Match an exact character sequence, returning the rest of the input. -/
def stripLit : List Char → List Char → Option (List Char)
  | [], cs => some cs
  | p :: ps, c :: cs => if c = p then stripLit ps cs else none
  | _ :: _, [] => none

mutual

/-- Recursive-descent JSON value parser (fuel bounds nesting; each unit of
fuel is spent only after consuming at least one input character, so fuel
`length + 1` always suffices). -/
def parseValue : Nat → List Char → Option (Json × List Char)
  | 0, _ => none
  | fuel + 1, cs0 =>
    let cs := skipWs cs0
    match cs with
    | [] => none
    | c :: rest =>
      if c = '"' then
        (parseStrChars rest.length rest).map fun p => (Json.str (String.mk p.1), p.2)
      else if c = '\x7b' then
        let cs2 := skipWs rest
        match cs2 with
        | '\x7d' :: r => some (Json.obj [], r)
        | _ => (parseMembers fuel cs2).map fun p => (Json.obj p.1, p.2)
      else if c = '[' then
        let cs2 := skipWs rest
        match cs2 with
        | ']' :: r => some (Json.arr [], r)
        | _ => (parseElems fuel cs2).map fun p => (Json.arr p.1, p.2)
      else if c = 't' then
        (stripLit ['r', 'u', 'e'] rest).map fun r => (Json.bool true, r)
      else if c = 'f' then
        (stripLit ['a', 'l', 's', 'e'] rest).map fun r => (Json.bool false, r)
      else if c = 'n' then
        (stripLit ['u', 'l', 'l'] rest).map fun r => (Json.null, r)
      else if c = 'N' then
        (stripLit ['a', 'N'] rest).map fun r => (Json.num "NaN", r)
      else if c = 'I' then
        (stripLit ['n', 'f', 'i', 'n', 'i', 't', 'y'] rest).map fun r =>
          (Json.num "Infinity", r)
      else if c = '-' then
        match rest with
        | 'I' :: r2 =>
          (stripLit ['n', 'f', 'i', 'n', 'i', 't', 'y'] r2).map fun r =>
            (Json.num "-Infinity", r)
        | _ => (parseNumber cs).map fun p => (Json.num p.1, p.2)
      else (parseNumber cs).map fun p => (Json.num p.1, p.2)

/-- Parse one or more object members starting at a key. -/
def parseMembers : Nat → List Char → Option (List (String × Json) × List Char)
  | 0, _ => none
  | fuel + 1, cs =>
    match cs with
    | '"' :: rest =>
      match parseStrChars rest.length rest with
      | none => none
      | some (kcs, r1) =>
        match skipWs r1 with
        | ':' :: r3 =>
          match parseValue fuel r3 with
          | none => none
          | some (v, r4) =>
            match skipWs r4 with
            | ',' :: r6 =>
              (parseMembers fuel (skipWs r6)).map fun p =>
                ((String.mk kcs, v) :: p.1, p.2)
            | '\x7d' :: r6 => some ([(String.mk kcs, v)], r6)
            | _ => none
        | _ => none
    | _ => none

/-- Parse one or more array elements. -/
def parseElems : Nat → List Char → Option (List Json × List Char)
  | 0, _ => none
  | fuel + 1, cs =>
    match parseValue fuel cs with
    | none => none
    | some (v, r) =>
      match skipWs r with
      | ',' :: r2 => (parseElems fuel r2).map fun p => (v :: p.1, p.2)
      | ']' :: r2 => some ([v], r2)
      | _ => none

end

/-- Embedding of Python `json.loads`: parse the whole text as one JSON
value, allowing surrounding whitespace only; `none` models
`json.JSONDecodeError`. -/
def json_loads (s : String) : Option Json :=
  match parseValue (s.toList.length + 1) s.toList with
  | some (v, rest) => if (skipWs rest).isEmpty then some v else none
  | none => none

/-- Embedding of `re.findall(r'\x7b[^\x7d]+\x7d', text)`: leftmost
non-overlapping matches of an opening brace, one or more non-closing-brace
characters, and a closing brace. -/
def findallBracesAux : Nat → List Char → List String
  | 0, _ => []
  | fuel + 1, cs =>
    match cs with
    | [] => []
    | c :: rest =>
      if c = '\x7b' then
        if (rest.takeWhile (fun d => d ≠ '\x7d')).isEmpty then
          findallBracesAux fuel rest
        else if (rest.takeWhile (fun d => d ≠ '\x7d')).length < rest.length then
          String.mk ('\x7b' :: (rest.takeWhile (fun d => d ≠ '\x7d') ++ ['\x7d'])) ::
            findallBracesAux fuel
              (rest.drop ((rest.takeWhile (fun d => d ≠ '\x7d')).length + 1))
        else findallBracesAux fuel rest
      else findallBracesAux fuel rest

/-- Entry point with sufficient fuel (every step consumes at least one
character). -/
def findallBraces (cs : List Char) : List String :=
  findallBracesAux cs.length cs

/-- Fail-fast effectful map, the semantics of a Python list comprehension
whose element expression may raise: elements are produced in order and the
first exception propagates. -/
def mapExcept {α β : Type} (f : α → Except PyErr β) : List α → Except PyErr (List β)
  | [] => .ok []
  | x :: xs =>
    match f x, mapExcept f xs with
    | .ok y, .ok ys => .ok (y :: ys)
    | .error e, _ => .error e
    | .ok _, .error e => .error e

/-- Embedding of `parse_categories` from `cluster-new.py` (lines 31-46):
try `json.loads` on the whole text, returning a list as-is and wrapping a
single mapping; a successfully parsed value of any other shape raises
`ValueError`.  On whole-text decode failure, scan for brace-delimited
fragments and `json.loads` each one (a malformed fragment re-raises
`JSONDecodeError`, which nothing in the function catches); with no
fragments at all, log and return the empty list. -/
def parse_categories (response_content : String) : Except PyErr (List Json) :=
  match json_loads response_content with
  | some (Json.arr xs) => .ok xs
  | some (Json.obj kvs) => .ok [Json.obj kvs]
  | some _ => .error .valueError
  | none =>
    let json_objects := findallBraces response_content.toList
    if json_objects.isEmpty then .ok []
    else mapExcept (fun obj =>
      match json_loads obj with
      | some j => .ok j
      | none => .error .jsonDecodeError) json_objects

/-- One row of the working set.  The columns the engine reads are explicit;
a `none` field models a row whose CSV file lacks that column (Python dict
key absent).  Category values are JSON values because the success path
assigns whatever `parse_categories` produced for that slot. -/
structure Record where
  keyword : Option String := none
  intents : Option String := none
  position : Option String := none
  mainCategory : Option Json := none
  subcategory : Option Json := none

/-- Lookup in an association list where a later binding shadows an earlier
one, matching Python dict construction from a key-value sequence. -/
def lookupLast {α : Type} : List (String × α) → String → Option α
  | [], _ => none
  | (k2, v) :: rest, k =>
    match lookupLast rest k with
    | some r => some r
    | none => if k2 = k then some v else none

/-- Python subscript `j[k]`: `KeyError` on a mapping without the key,
`TypeError` on any non-mapping value. -/
def Json.getKey : Json → String → Except PyErr Json
  | .obj kvs, k =>
    match lookupLast kvs k with
    | some v => .ok v
    | none => .error (.keyError k)
  | _, k => match k with | _ => .error .typeError

/-- Whether a JSON number lexeme denotes zero: it has mantissa digits and
they are all zero (`0`, `-0`, `0.00`, `0e5`, ...). -/
def numIsZero (lex : String) : Bool :=
  let mantissa := (lex.toList.takeWhile fun c => c ≠ 'e' ∧ c ≠ 'E').filter Char.isDigit
  ¬ mantissa.isEmpty ∧ mantissa.all (· = '0')

/-- Python truthiness of a parsed JSON value. -/
def Json.truthy : Json → Bool
  | .null => false
  | .bool b => b
  | .num lex => ¬ numIsZero lex
  | .str s => s ≠ ""
  | .arr xs => ¬ xs.isEmpty
  | .obj kvs => ¬ kvs.isEmpty

/-- Python `j != t` where `t` is a string: values of other types are never
equal to a string. -/
def jsonNeStr (j : Json) (t : String) : Bool :=
  match j with
  | .str s => s ≠ t
  | _ => true

/-- The condition counted by `load_progress` (line 89):
`item.get('Main Category') and item.get('Main Category') != 'Uncategorized'`. -/
def isCompleted (item : Record) : Bool :=
  match item.mainCategory with
  | none => false
  | some j => j.truthy && jsonNeStr j "Uncategorized"

/-- Count of records the checkpoint loader treats as already categorized. -/
def countCompleted (data : List Record) : Nat :=
  (data.filter isCompleted).length

/-- Embedding of `load_progress` (lines 81-91).  A file is modelled as its
already-parsed row list; `none` models an absent checkpoint
(`os.path.exists` false).  Returns the working set and the resume index. -/
def load_progress (file : Option (List Record)) : List Record × Nat :=
  match file with
  | none => ([], 0)
  | some data => (data, countCompleted data)

/-- Embedding of `read_csv` (lines 18-29): `none` models a source that
cannot be opened or decoded, which the function re-raises after logging.
Note that no column validation of any kind is performed on readable input:
whatever rows the reader produced are returned as-is. -/
def read_csv (file : Option (List Record)) : Except PyErr (List Record) :=
  match file with
  | none => .error .osError
  | some data => .ok data

/-- A flat file system: path to parsed row-list content. -/
structure FS where
  files : List (String × List Record)

/-- Content at a path, if the file exists. -/
def FS.get (fs : FS) (p : String) : Option (List Record) :=
  lookupLast fs.files p

/-- Create or overwrite a file. -/
def FS.set (fs : FS) (p : String) (content : List Record) : FS :=
  ⟨fs.files.filter (fun e => e.1 ≠ p) ++ [(p, content)]⟩

/-- Remove a file if present. -/
def FS.remove (fs : FS) (p : String) : FS :=
  ⟨fs.files.filter (fun e => e.1 ≠ p)⟩

/-- Temporary path used by `save_progress`: `f"temp_{output_file}"`. -/
def temp_name (output_file : String) : String :=
  "temp_" ++ output_file

/-- First phase of `save_progress` (lines 93-100): take the field names
from the first record (an empty working set raises `IndexError` here,
before anything is opened or written) and write the complete working set
to the temporary path. -/
def saveWriteTemp (keywords : List Record) (output_file : String) (fs : FS) :
    Except PyErr FS :=
  match keywords with
  | [] => .error .indexError
  | _ :: _ => .ok (fs.set (temp_name output_file) keywords)

/-- Second phase of `save_progress` (line 102): `os.replace(temp_file,
output_file)` atomically moves the temporary file onto the destination. -/
def saveReplace (output_file : String) (fs : FS) : Except PyErr FS :=
  match fs.get (temp_name output_file) with
  | some content => .ok ((fs.remove (temp_name output_file)).set output_file content)
  | none => .error .osError

/-- Embedding of `save_progress` (lines 93-103): both phases in order. -/
def save_progress (keywords : List Record) (output_file : String) (fs : FS) :
    Except PyErr FS :=
  match saveWriteTemp keywords output_file fs with
  | .error e => .error e
  | .ok fs1 => saveReplace output_file fs1

/-- Split a character list at every character satisfying the predicate,
keeping empty parts (never returns an empty outer list). -/
def splitChars (p : Char → Bool) : List Char → List (List Char)
  | [] => [[]]
  | c :: rest =>
    if p c then [] :: splitChars p rest
    else
      match splitChars p rest with
      | [] => [[c]]
      | h :: t => (c :: h) :: t

/-- Python `s.split(sep)` for a one-character separator: split at every
occurrence, keeping empty parts. -/
def pySplit (sep : Char) (s : String) : List String :=
  (splitChars (· = sep) s.toList).map String.mk

/-- ASCII whitespace recognized by Python `str.split()`. -/
def pyIsSpace (c : Char) : Bool :=
  c = ' ' || c = '\t' || c = '\n' || c = '\r' ||
    c = Char.ofNat 11 || c = Char.ofNat 12

/-- Python `s.split()` with no argument: split on whitespace runs,
discarding empty parts. -/
def pySplitWs (s : String) : List String :=
  ((splitChars pyIsSpace s.toList).map String.mk).filter (fun t => t ≠ "")

/-- The price fragment of the prompt metadata (line 124):
`'$' + kw['Keyword'].split('$')[1] if '$' in kw['Keyword'] else 'N/A'`. -/
def priceInfo (kw : String) : String :=
  if kw.toList.contains '$' then "$" ++ (pySplit '$' kw).getD 1 "" else "N/A"

/-- ASCII lowercasing, Python `str.lower()` on the characters the engine
meets. -/
def pyLowerChar (c : Char) : Char :=
  if 'A' ≤ c ∧ c ≤ 'Z' then Char.ofNat (c.toNat + 32) else c

/-- Python `s.lower()`. -/
def pyLower (s : String) : String :=
  String.mk (s.toList.map pyLowerChar)

/-- The n-gram figure of the prompt metadata (line 124):
`sum([ngram_counts.get(ngram, 0) for ngram in kw['Keyword'].lower().split()
if ngram in ngram_counts])`. -/
def ngramTally (ngram_counts : List (String × Nat)) (kw : String) : Nat :=
  ((pySplitWs (pyLower kw)).filter
    (fun t => (lookupLast ngram_counts t).isSome)).foldl
    (fun acc t => acc + (lookupLast ngram_counts t).getD 0) 0

/-- The per-record metadata interpolated into the prompt (line 124). -/
structure RecordMeta where
  text : String
  intent : String
  price : String
  position : String
  ngramCount : Nat
deriving DecidableEq, Repr

/-- Build one record's prompt metadata.  This happens during prompt
construction (lines 113-124), before and outside the `try` block, so a
missing required column raises `KeyError` and propagates.  Columns are
read in the order the f-string evaluates them. -/
def buildMeta (ngram_counts : List (String × Nat)) (r : Record) :
    Except PyErr RecordMeta :=
  match r.keyword with
  | none => .error (.keyError "Keyword")
  | some kw =>
    match r.intents with
    | none => .error (.keyError "Keyword Intents")
    | some it =>
      match r.position with
      | none => .error (.keyError "Position")
      | some pos => .ok ⟨kw, it, priceInfo kw, pos, ngramTally ngram_counts kw⟩

/-- The content of one service request: the taxonomy description, the
n-gram context block, and the per-record metadata, in batch order.  The
constant English template text around these is the same for every call and
is omitted. -/
structure Payload where
  categoryPrompt : String
  ngramInfo : String
  metas : List RecordMeta
deriving DecidableEq, Repr

/-- The taxonomy block of the prompt (line 108). -/
def categoryPromptOf (main_categories : List (String × List String)) : String :=
  String.intercalate "\n"
    (main_categories.map fun e => e.1 ++ ": " ++ String.intercalate ", " e.2)

/-- The n-gram context block of the prompt (line 109): up to 5 example
n-grams per bucket. -/
def ngramInfoOf (ngram_categories : List (String × List String)) : String :=
  String.intercalate "\n"
    (ngram_categories.map fun e =>
      e.1 ++ ": " ++ String.intercalate ", " (e.2.take 5))

/-- The external classification service, as observed by the engine: a
response text on success, `none` for a transport/service error. -/
def Service : Type :=
  Payload → Option String

/-- The sentinel label. -/
def uncategorized : Json :=
  Json.str "Uncategorized"

/-- The sentinel assignment object used to pad short parses (line 141). -/
def sentinelObj : Json :=
  Json.obj [("main_category", uncategorized), ("subcategory", uncategorized)]

/-- The direct sentinel write of the `except` branch (lines 150-152). -/
def setSentinel (r : Record) : Record :=
  { r with mainCategory := some uncategorized, subcategory := some uncategorized }

/-- The effective assignment list for a batch (lines 139-142): the parse
result padded with sentinel objects up to the batch size
(`categories.extend([...] * (len(batch) - len(categories)))`, a no-op when
the parse is longer) and truncated to the batch size
(`categories[:len(batch)]`). -/
def padOf (cats : List Json) (n : Nat) : List Json :=
  (cats ++ List.replicate (n - cats.length) sentinelObj).take n

/-- Apply parsed assignments to the batch in `zip` order (lines 144-146):
each record receives the values at keys `main_category` and `subcategory`
of its assignment.  A missing key or non-mapping element raises; the
Python loop has then already mutated earlier records, but the `except`
branch overwrites the whole batch with sentinels, so the all-or-nothing
result here is observationally identical. -/
def applyCats : List Record → List Json → Except PyErr (List Record)
  | [], _ => .ok []
  | rs, [] => .ok rs
  | r :: rs, c :: cs =>
    match c.getKey "main_category", c.getKey "subcategory", applyCats rs cs with
    | .ok m, .ok s, .ok rest =>
      .ok ({ r with mainCategory := some m, subcategory := some s } :: rest)
    | .error e, _, _ => .error e
    | .ok _, .error e, _ => .error e
    | .ok _, .ok _, .error e => .error e

/-- Process one batch (lines 113-152): build the prompt metadata (outside
the `try`: errors here propagate), invoke the service once, and inside the
`try` parse, pad short parses with sentinel objects, truncate to the batch
size, and apply positionally; any failure inside the `try` (service error,
parse error, missing assignment key) ends with every record of the batch
holding the sentinel pair.  Returns the updated batch and the payload sent. -/
def categorizeBatch (svc : Service) (catPrompt ngInfo : String)
    (ngram_counts : List (String × Nat)) (batch : List Record) :
    Except PyErr (List Record × Payload) :=
  match mapExcept (buildMeta ngram_counts) batch with
  | .error e => .error e
  | .ok metas =>
    let p : Payload := ⟨catPrompt, ngInfo, metas⟩
    let newBatch :=
      match svc p with
      | none => batch.map setSentinel
      | some resp =>
        match parse_categories resp with
        | .error _ => batch.map setSentinel
        | .ok cats =>
          match applyCats batch (padOf cats batch.length) with
          | .ok nb => nb
          | .error _ => batch.map setSentinel
    .ok (newBatch, p)

/-- Observable state of a run: the working set plus the trace of service
calls made and of checkpoint writes (batch start index and the snapshot
handed to `save_progress`). -/
structure RunState where
  records : List Record
  calls : List Payload
  saves : List (Nat × List Record)

/-- One iteration of the batch loop (lines 111-156): slice the batch,
process it, splice the result back, then the checkpoint condition
`(i + batch_size) % save_interval == 0 or (i + batch_size) >= len(keywords)`
(a zero save interval raises `ZeroDivisionError` here, as in Python). -/
def stepBatch (svc : Service) (catPrompt ngInfo : String)
    (ngram_counts : List (String × Nat)) (bstep save_interval : Nat)
    (st : RunState) (i : Nat) : Except PyErr RunState :=
  match categorizeBatch svc catPrompt ngInfo ngram_counts
      ((st.records.drop i).take (bstep + 1)) with
  | .error e => .error e
  | .ok (newBatch, p) =>
    let recs := st.records.take i ++ newBatch ++ st.records.drop (i + (bstep + 1))
    if save_interval = 0 then .error .zeroDivisionError
    else
      .ok ⟨recs, st.calls ++ [p],
        st.saves ++
          (if (i + (bstep + 1)) % save_interval = 0 ∨ i + (bstep + 1) ≥ recs.length
           then [(i, recs)] else [])⟩

/-- Fuel-driven generator for `range(start, len, step)` indices. -/
def batchStartsAux (bstep len : Nat) : Nat → Nat → List Nat
  | _, 0 => []
  | i, fuel + 1 =>
    if i < len then i :: batchStartsAux bstep len (i + bstep + 1) fuel else []

/-- The batch start indices `range(start_index, len(keywords), batch_size)`
with positive step `bstep + 1` (fuel `len - i` suffices since each step
advances by at least one while below `len`). -/
def batchStarts (bstep len i : Nat) : List Nat :=
  batchStartsAux bstep len i (len - i)

/-- Left fold of a fallible step over the batch starts. -/
def runLoop (f : RunState → Nat → Except PyErr RunState) :
    RunState → List Nat → Except PyErr RunState
  | st, [] => .ok st
  | st, i :: rest =>
    match f st i with
    | .error e => .error e
    | .ok st2 => runLoop f st2 rest

/-- Embedding of `categorize_keywords` (lines 105-158): compute the two
prompt context blocks once, then run the batch loop from `start_index`.
`batch_size = 0` makes `range` raise `ValueError` before any iteration. -/
def categorize_keywords (svc : Service)
    (main_categories : List (String × List String))
    (ngram_counts : List (String × Nat))
    (ngram_categories : List (String × List String))
    (keywords : List Record) (start_index batch_size save_interval : Nat) :
    Except PyErr RunState :=
  match batch_size with
  | 0 => .error .valueError
  | bstep + 1 =>
    runLoop
      (stepBatch svc (categoryPromptOf main_categories)
        (ngramInfoOf ngram_categories) ngram_counts bstep save_interval)
      ⟨keywords, [], []⟩
      (batchStarts bstep keywords.length start_index)

/-- Observation: the final working set of a run, when the run terminated
normally. -/
def runRecords : Except PyErr RunState → Option (List Record)
  | .ok st => some st.records
  | .error _ => none

/-- Observation: the `Main Category` column of the final working set. -/
def runMains : Except PyErr RunState → Option (List (Option Json))
  | .ok st => some (st.records.map fun r => r.mainCategory)
  | .error _ => none

/-- Observation: the `Subcategory` column of the final working set. -/
def runSubs : Except PyErr RunState → Option (List (Option Json))
  | .ok st => some (st.records.map fun r => r.subcategory)
  | .error _ => none

/-- Observation: the batch start index of every checkpoint write. -/
def runSaveStarts : Except PyErr RunState → Option (List Nat)
  | .ok st => some (st.saves.map fun e => e.1)
  | .error _ => none

/-- Observation: the snapshot handed to the n-th checkpoint write. -/
def runSnapshot (n : Nat) : Except PyErr RunState → Option (List Record)
  | .ok st => (st.saves.get? n).map fun e => e.2
  | .error _ => none

/-- Observation: the keyword texts of each service call made, in order. -/
def runCallTexts : Except PyErr RunState → Option (List (List String))
  | .ok st => some (st.calls.map fun p => p.metas.map fun m => m.text)
  | .error _ => none

/-- Boolean success test for an embedded Python computation. -/
def isOkB {α : Type} : Except PyErr α → Bool
  | .ok _ => true
  | .error _ => false

/-- Boolean raise test for an embedded Python computation. -/
def isErrB {α : Type} : Except PyErr α → Bool
  | .ok _ => false
  | .error _ => true

/-- A parsed whole-response value of a shape other than sequence or
mapping (the `ValueError` case of strategy 1). -/
def wrongShape : Json → Bool
  | .arr _ => false
  | .obj _ => false
  | _ => true

/-- A parsed assignment element carrying both category keys (so that
applying it cannot raise). -/
def catWellFormed (c : Json) : Bool :=
  isOkB (c.getKey "main_category") && isOkB (c.getKey "subcategory")

/-- The per-record dispatch rule stated by the spec: the i-th record of
the batch receives the two category values of the i-th parsed assignment
when the parse yielded at least `i + 1` assignments, and the sentinel pair
otherwise; assignments beyond the batch are ignored. -/
def claimPositional : List Record → List Json → List Record
  | [], _ => []
  | r :: rs, [] => setSentinel r :: claimPositional rs []
  | r :: rs, c :: cs =>
    { r with mainCategory := (c.getKey "main_category").toOption,
             subcategory := (c.getKey "subcategory").toOption } ::
      claimPositional rs cs

/-- A record whose two category fields hold non-empty strings. -/
def goodRec (r : Record) : Prop :=
  (∃ s, r.mainCategory = some (Json.str s) ∧ s ≠ "") ∧
  (∃ s, r.subcategory = some (Json.str s) ∧ s ≠ "")

/-- A service whose parsed assignments only ever expose non-empty string
values at the two category keys. -/
def goodResponses (svc : Service) : Prop :=
  ∀ p resp cats, svc p = some resp → parse_categories resp = .ok cats →
    ∀ c ∈ cats,
      (∀ v, c.getKey "main_category" = .ok v → ∃ s, v = Json.str s ∧ s ≠ "") ∧
      (∀ v, c.getKey "subcategory" = .ok v → ∃ s, v = Json.str s ∧ s ≠ "")

/-- A row carrying all three required columns. -/
def hasRequired (r : Record) : Bool :=
  r.keyword.isSome && r.intents.isSome && r.position.isSome

/-- The price token as the claim words it: the substring following the
first dollar sign when the text contains one, else the
not-available marker. -/
def claimPrice (kw : String) : String :=
  if kw.toList.contains '$' then
    String.mk ((kw.toList.dropWhile (fun c => c ≠ '$')).tail)
  else "N/A"

/-- Prefix test on character lists. -/
def listPrefixOf : List Char → List Char → Bool
  | [], _ => true
  | _ :: _, [] => false
  | a :: as, b :: bs => a = b && listPrefixOf as bs

/-- Infix test on character lists. -/
def listInfixOf (needle : List Char) : List Char → Bool
  | [] => needle.isEmpty
  | c :: rest => listPrefixOf needle (c :: rest) || listInfixOf needle rest

/-- Literal substring test (Python `needle in hay`). -/
def isSubstrOf (needle hay : String) : Bool :=
  listInfixOf needle.toList hay.toList

/-- The n-gram figure as the claim words it: the sum of the frequencies
of every hint string that occurs as a literal substring of the keyword
text. -/
def claimTally (ngram_counts : List (String × Nat)) (kw : String) : Nat :=
  ((ngram_counts.filter fun e => isSubstrOf e.1 kw).map fun e => e.2).sum

/-- The state after processing the first `m` batches of a fresh run from
index 0 — the working set a checkpoint written at that moment snapshots
(`save_progress` persists the current working set verbatim). -/
def partialRun (svc : Service)
    (main_categories : List (String × List String))
    (ngram_counts : List (String × Nat))
    (ngram_categories : List (String × List String))
    (keywords : List Record) (b save_interval m : Nat) :
    Except PyErr RunState :=
  runLoop
    (stepBatch svc (categoryPromptOf main_categories)
      (ngramInfoOf ngram_categories) ngram_counts b save_interval)
    ⟨keywords, [], []⟩
    ((batchStarts b keywords.length 0).take m)

/-- The three immutable columns of a record. -/
def metaF (r : Record) : Option String × Option String × Option String :=
  (r.keyword, r.intents, r.position)

theorem runLoop_append (f : RunState → Nat → Except PyErr RunState)
    (l1 l2 : List Nat) (st : RunState) :
    runLoop f st (l1 ++ l2) =
      match runLoop f st l1 with
      | .error e => .error e
      | .ok st2 => runLoop f st2 l2 := by
  induction l1 generalizing st with
  | nil => simp [runLoop]
  | cons i l ih =>
    simp only [List.cons_append, runLoop]
    cases f st i <;> simp [ih]

theorem batchStartsAux_fuel (bstep len : Nat) :
    ∀ f1 : Nat, ∀ i f2, len - i ≤ f1 → len - i ≤ f2 →
      batchStartsAux bstep len i f1 = batchStartsAux bstep len i f2 := by
  intro f1
  induction f1 with
  | zero =>
    intro i f2 h1 h2
    have hge : ¬ i < len := by omega
    cases f2 with
    | zero => rfl
    | succ g => simp [batchStartsAux, hge]
  | succ k ih =>
    intro i f2 h1 h2
    by_cases hlt : i < len
    · cases f2 with
      | zero => omega
      | succ g =>
        simp only [batchStartsAux, if_pos hlt]
        congr 1
        exact ih (i + bstep + 1) g (by omega) (by omega)
    · cases f2 with
      | zero => simp [batchStartsAux, hlt]
      | succ g => simp [batchStartsAux, hlt]

theorem batchStarts_ge (b len i : Nat) (h : len ≤ i) :
    batchStarts b len i = [] := by
  unfold batchStarts
  have h0 : len - i = 0 := by omega
  rw [h0]
  rfl

theorem batchStarts_lt (b len i : Nat) (h : i < len) :
    batchStarts b len i = i :: batchStarts b len (i + b + 1) := by
  unfold batchStarts
  have h1 : len - i = (len - i - 1) + 1 := by omega
  rw [h1]
  simp only [batchStartsAux, if_pos h]
  congr 1
  exact batchStartsAux_fuel b len (len - i - 1) (i + b + 1) (len - (i + b + 1))
    (by omega) (by omega)

theorem batchStarts_drop (b len : Nat) :
    ∀ (m i : Nat), (batchStarts b len i).drop m = batchStarts b len (i + m * (b + 1)) := by
  intro m
  induction m with
  | zero => intro i; simp
  | succ k ih =>
    intro i
    by_cases h : i < len
    · rw [batchStarts_lt b len i h]
      simp only [List.drop_succ_cons]
      rw [ih (i + b + 1)]
      have e : i + b + 1 + k * (b + 1) = i + (k + 1) * (b + 1) := by ring
      rw [e]
    · rw [batchStarts_ge b len i (Nat.le_of_not_lt h), batchStarts_ge]
      · simp
      · omega

theorem applyCats_length :
    ∀ (rs : List Record) (cs : List Json) (res : List Record),
      applyCats rs cs = .ok res → res.length = rs.length := by
  intro rs
  induction rs with
  | nil =>
    intro cs res h
    cases cs <;> simp [applyCats] at h <;> simp [← h]
  | cons r rs2 ih =>
    intro cs res h
    cases cs with
    | nil =>
      simp [applyCats] at h
      simp [← h]
    | cons c cs2 =>
      simp only [applyCats] at h
      cases hm : c.getKey "main_category" with
      | error e => rw [hm] at h; simp at h
      | ok m =>
        rw [hm] at h
        cases hs : c.getKey "subcategory" with
        | error e => rw [hs] at h; simp at h
        | ok s =>
          rw [hs] at h
          cases hr : applyCats rs2 cs2 with
          | error e => rw [hr] at h; simp at h
          | ok rest =>
            rw [hr] at h
            simp at h
            rw [← h]
            simp [ih cs2 rest hr]

theorem applyCats_meta :
    ∀ (rs : List Record) (cs : List Json) (res : List Record),
      applyCats rs cs = .ok res → res.map metaF = rs.map metaF := by
  intro rs
  induction rs with
  | nil =>
    intro cs res h
    cases cs <;> simp [applyCats] at h <;> simp [← h]
  | cons r rs2 ih =>
    intro cs res h
    cases cs with
    | nil =>
      simp [applyCats] at h
      simp [← h]
    | cons c cs2 =>
      simp only [applyCats] at h
      cases hm : c.getKey "main_category" with
      | error e => rw [hm] at h; simp at h
      | ok m =>
        rw [hm] at h
        cases hs : c.getKey "subcategory" with
        | error e => rw [hs] at h; simp at h
        | ok s =>
          rw [hs] at h
          cases hr : applyCats rs2 cs2 with
          | error e => rw [hr] at h; simp at h
          | ok rest =>
            rw [hr] at h
            simp at h
            rw [← h]
            simp [metaF, ih cs2 rest hr]

theorem setSentinel_meta (r : Record) : metaF (setSentinel r) = metaF r := by
  simp [metaF, setSentinel]

theorem mapExcept_length {α β : Type} (f : α → Except PyErr β) :
    ∀ (l : List α) (ys : List β), mapExcept f l = .ok ys → ys.length = l.length := by
  intro l
  induction l with
  | nil => intro ys h; simp [mapExcept] at h; simp [← h]
  | cons x xs ih =>
    intro ys h
    simp only [mapExcept] at h
    cases hx : f x with
    | error e => rw [hx] at h; simp at h
    | ok y =>
      rw [hx] at h
      cases hr : mapExcept f xs with
      | error e => rw [hr] at h; simp at h
      | ok ys2 =>
        rw [hr] at h
        simp at h
        simp [← h, ih ys2 hr]

theorem mapExcept_get {α β : Type} (f : α → Except PyErr β) :
    ∀ (l : List α) (ys : List β), mapExcept f l = .ok ys →
      ∀ (j : Nat) (x : α), l.get? j = some x →
        ∃ y, f x = .ok y ∧ ys.get? j = some y := by
  intro l
  induction l with
  | nil => intro ys h j x hj; simp at hj
  | cons a xs ih =>
    intro ys h j x hj
    simp only [mapExcept] at h
    cases hx : f a with
    | error e => rw [hx] at h; simp at h
    | ok y =>
      rw [hx] at h
      cases hr : mapExcept f xs with
      | error e => rw [hr] at h; simp at h
      | ok ys2 =>
        rw [hr] at h
        simp at h
        cases j with
        | zero =>
          simp at hj
          subst hj
          exact ⟨y, hx, by simp [← h]⟩
        | succ k =>
          simp at hj
          obtain ⟨y2, hy2, hget⟩ := ih ys2 hr k x (by simpa using hj)
          refine ⟨y2, hy2, ?_⟩
          rw [← h]
          simpa using hget

theorem mapExcept_buildMeta_texts (nc : List (String × Nat)) :
    ∀ (batch : List Record) (metas : List RecordMeta),
      mapExcept (buildMeta nc) batch = .ok metas →
      metas.map (fun m => m.text) = batch.map (fun r => r.keyword.getD "") := by
  intro batch
  induction batch with
  | nil => intro metas h; simp [mapExcept] at h; simp [← h]
  | cons r rs ih =>
    intro metas h
    simp only [mapExcept] at h
    cases hx : buildMeta nc r with
    | error e => rw [hx] at h; simp at h
    | ok m =>
      rw [hx] at h
      cases hr : mapExcept (buildMeta nc) rs with
      | error e => rw [hr] at h; simp at h
      | ok ms =>
        rw [hr] at h
        simp at h
        have htext : m.text = r.keyword.getD "" := by
          simp only [buildMeta] at hx
          cases hkw : r.keyword with
          | none => rw [hkw] at hx; simp at hx
          | some kw =>
            rw [hkw] at hx
            cases hit : r.intents with
            | none => rw [hit] at hx; simp at hx
            | some it =>
              rw [hit] at hx
              cases hpos : r.position with
              | none => rw [hpos] at hx; simp at hx
              | some pos =>
                rw [hpos] at hx
                simp at hx
                simp [← hx]
        simp [← h, htext, ih ms hr]

theorem categorizeBatch_err (svc : Service) (cp ni : String)
    (nc : List (String × Nat)) (batch : List Record) (e : PyErr)
    (h : mapExcept (buildMeta nc) batch = .error e) :
    categorizeBatch svc cp ni nc batch = .error e := by
  simp [categorizeBatch, h]

theorem categorizeBatch_payload (svc : Service) (cp ni : String)
    (nc : List (String × Nat)) (batch nb : List Record) (p : Payload)
    (h : categorizeBatch svc cp ni nc batch = .ok (nb, p)) :
    ∃ metas, mapExcept (buildMeta nc) batch = .ok metas ∧
      p = ⟨cp, ni, metas⟩ := by
  simp only [categorizeBatch] at h
  cases hm : mapExcept (buildMeta nc) batch with
  | error e => rw [hm] at h; simp at h
  | ok metas =>
    rw [hm] at h
    simp at h
    exact ⟨metas, rfl, h.2.symm⟩

theorem categorizeBatch_len (svc : Service) (cp ni : String)
    (nc : List (String × Nat)) (batch nb : List Record) (p : Payload)
    (h : categorizeBatch svc cp ni nc batch = .ok (nb, p)) :
    nb.length = batch.length := by
  simp only [categorizeBatch] at h
  cases hm : mapExcept (buildMeta nc) batch with
  | error e => rw [hm] at h; simp at h
  | ok metas =>
    rw [hm] at h
    simp at h
    rw [← h.1]
    cases hsvc : svc ⟨cp, ni, metas⟩ with
    | none => simp
    | some resp =>
      cases hp : parse_categories resp with
      | error e => simp [hp]
      | ok cats =>
        cases ha : applyCats batch (padOf cats batch.length) with
        | error e => simp [hp, ha]
        | ok nb2 => simp [hp, ha, applyCats_length batch _ nb2 ha]

theorem categorizeBatch_meta (svc : Service) (cp ni : String)
    (nc : List (String × Nat)) (batch nb : List Record) (p : Payload)
    (h : categorizeBatch svc cp ni nc batch = .ok (nb, p)) :
    nb.map metaF = batch.map metaF := by
  simp only [categorizeBatch] at h
  cases hm : mapExcept (buildMeta nc) batch with
  | error e => rw [hm] at h; simp at h
  | ok metas =>
    rw [hm] at h
    simp at h
    rw [← h.1]
    cases hsvc : svc ⟨cp, ni, metas⟩ with
    | none => simp [setSentinel_meta]
    | some resp =>
      cases hp : parse_categories resp with
      | error e => simp [hp, setSentinel_meta]
      | ok cats =>
        cases ha : applyCats batch (padOf cats batch.length) with
        | error e => simp [hp, ha, setSentinel_meta]
        | ok nb2 => simp [hp, ha, applyCats_meta batch _ nb2 ha]

theorem take_take_drop_id {α : Type} (M : List α) (i k : Nat) :
    (M.take i ++ (M.drop i).take k) ++ M.drop (i + k) = M := by
  rw [List.append_assoc, List.drop_take_append_drop, List.take_append_drop]

theorem stepBatch_ok (svc : Service) (cp ni : String) (nc : List (String × Nat))
    (b si : Nat) (st st2 : RunState) (i : Nat)
    (h : stepBatch svc cp ni nc b si st i = .ok st2) :
    ∃ nb p,
      categorizeBatch svc cp ni nc ((st.records.drop i).take (b + 1)) = .ok (nb, p) ∧
      si ≠ 0 ∧
      st2.records = (st.records.take i ++ nb) ++ st.records.drop (i + (b + 1)) ∧
      st2.calls = st.calls ++ [p] ∧
      st2.saves = st.saves ++
        (if (i + (b + 1)) % si = 0 ∨ i + (b + 1) ≥ st2.records.length
         then [(i, st2.records)] else []) := by
  simp only [stepBatch] at h
  split at h
  next e heq => simp at h
  next nb p heq =>
    split at h
    next hsi => simp at h
    next hsi =>
      injection h with h
      refine ⟨nb, p, heq, hsi, ?_, ?_, ?_⟩ <;> rw [← h]

theorem stepBatch_len (svc : Service) (cp ni : String) (nc : List (String × Nat))
    (b si : Nat) (st st2 : RunState) (i : Nat)
    (h : stepBatch svc cp ni nc b si st i = .ok st2) :
    st2.records.length = st.records.length := by
  obtain ⟨nb, p, hc, hsi, hrec, _, _⟩ := stepBatch_ok svc cp ni nc b si st st2 i h
  have hlen := categorizeBatch_len svc cp ni nc _ nb p hc
  rw [hrec]
  simp only [List.length_append, List.length_take, List.length_drop, hlen,
    List.length_take]
  omega

theorem stepBatch_meta (svc : Service) (cp ni : String) (nc : List (String × Nat))
    (b si : Nat) (st st2 : RunState) (i : Nat)
    (h : stepBatch svc cp ni nc b si st i = .ok st2) :
    st2.records.map metaF = st.records.map metaF := by
  obtain ⟨nb, p, hc, hsi, hrec, _, _⟩ := stepBatch_ok svc cp ni nc b si st st2 i h
  have hmeta := categorizeBatch_meta svc cp ni nc _ nb p hc
  rw [hrec]
  simp only [List.map_append, hmeta, List.map_take, List.map_drop]
  exact take_take_drop_id (st.records.map metaF) i (b + 1)

/-- Trace characterization of the batch loop: an ok run preserves the
working-set length and the immutable columns, makes exactly one service
call per batch start (whose per-record texts are the keyword texts of that
slice of the working set as it was at loop entry), and writes a checkpoint
at exactly the batch starts satisfying the save condition. -/
theorem runLoop_trace (svc : Service) (cp ni : String) (nc : List (String × Nat))
    (b si : Nat) :
    ∀ (starts : List Nat) (st st2 : RunState),
      runLoop (stepBatch svc cp ni nc b si) st starts = .ok st2 →
      st2.records.length = st.records.length ∧
      st2.records.map metaF = st.records.map metaF ∧
      st2.calls.map (fun p => p.metas.map fun m => m.text)
        = st.calls.map (fun p => p.metas.map fun m => m.text)
          ++ starts.map (fun i =>
               (((st.records.map fun r => r.keyword.getD "").drop i).take (b + 1))) ∧
      st2.saves.map (fun e => e.1)
        = st.saves.map (fun e => e.1)
          ++ starts.filter (fun i =>
               (((i + (b + 1)) % si == 0) || decide (st.records.length ≤ i + (b + 1)))) := by
  intro starts
  induction starts with
  | nil =>
    intro st st2 h
    simp [runLoop] at h
    subst h
    simp
  | cons i l ih =>
    intro st st2 h
    simp only [runLoop] at h
    cases hs : stepBatch svc cp ni nc b si st i with
    | error e => rw [hs] at h; simp at h
    | ok st1 =>
      rw [hs] at h
      obtain ⟨hlen1, hmeta1, hcalls1, hsaves1⟩ := ih st1 st2 h
      obtain ⟨nb, p, hc, hsi, hrec, hcallsS, hsavesS⟩ :=
        stepBatch_ok svc cp ni nc b si st st1 i hs
      have hlenS := stepBatch_len svc cp ni nc b si st st1 i hs
      have hmetaS := stepBatch_meta svc cp ni nc b si st st1 i hs
      have hkw : st1.records.map (fun r => r.keyword.getD "")
          = st.records.map (fun r => r.keyword.getD "") := by
        have h2 := congrArg
          (List.map (fun t : Option String × Option String × Option String => t.1.getD ""))
          hmetaS
        simpa [List.map_map, Function.comp, metaF] using h2
      refine ⟨by rw [hlen1, hlenS], by rw [hmeta1, hmetaS], ?_, ?_⟩
      · rw [hcalls1, hcallsS, hkw]
        obtain ⟨metas, hm, hp⟩ := categorizeBatch_payload svc cp ni nc _ nb p hc
        have htext := mapExcept_buildMeta_texts nc _ metas hm
        rw [hp]
        simp only [List.map_append, List.map_cons, List.map_nil]
        rw [List.append_assoc]
        congr 1
        simp only [List.singleton_append]
        congr 1
        rw [htext]
        rw [List.map_take, List.map_drop]
      · rw [hsaves1, hsavesS, hlenS]
        rw [hlenS] at hsavesS
        simp only [List.map_append]
        rw [List.append_assoc]
        congr 1
        rw [List.filter_cons]
        by_cases hP : (i + (b + 1)) % si = 0 ∨ i + (b + 1) ≥ st.records.length
        · rw [if_pos hP]
          have hcond : (((i + (b + 1)) % si == 0)
              || decide (st.records.length ≤ i + (b + 1))) = true := by
            rcases hP with h1 | h1 <;> simp [h1]
          rw [if_pos hcond]
          simp
        · rw [if_neg hP]
          have hcond : (((i + (b + 1)) % si == 0)
              || decide (st.records.length ≤ i + (b + 1))) = false := by
            rw [not_or] at hP
            simp [hP.1, hP.2]
          rw [if_neg (by simp [hcond])]
          simp

theorem stepBatch_records_congr (svc : Service) (cp ni : String)
    (nc : List (String × Nat)) (b si : Nat) (st st2 : RunState) (i : Nat)
    (h : st.records = st2.records) :
    (stepBatch svc cp ni nc b si st i).map (fun s => s.records)
      = (stepBatch svc cp ni nc b si st2 i).map (fun s => s.records) := by
  simp only [stepBatch, h]
  cases categorizeBatch svc cp ni nc ((st2.records.drop i).take (b + 1)) with
  | error e => rfl
  | ok pr =>
    obtain ⟨nb, p⟩ := pr
    by_cases hsi : si = 0
    · simp [hsi]
    · simp only [if_neg hsi]
      rfl

theorem runLoop_records_congr (svc : Service) (cp ni : String)
    (nc : List (String × Nat)) (b si : Nat) :
    ∀ (l : List Nat) (st st2 : RunState), st.records = st2.records →
      (runLoop (stepBatch svc cp ni nc b si) st l).map (fun s => s.records)
        = (runLoop (stepBatch svc cp ni nc b si) st2 l).map (fun s => s.records) := by
  intro l
  induction l with
  | nil => intro st st2 h; simp [runLoop, Except.map, h]
  | cons i l2 ih =>
    intro st st2 h
    simp only [runLoop]
    have hstep := stepBatch_records_congr svc cp ni nc b si st st2 i h
    cases h1 : stepBatch svc cp ni nc b si st i with
    | error e =>
      rw [h1] at hstep
      cases h2 : stepBatch svc cp ni nc b si st2 i with
      | error e2 =>
        rw [h2] at hstep
        simp [Except.map] at hstep
        simp [Except.map, hstep]
      | ok s2 => rw [h2] at hstep; simp [Except.map] at hstep
    | ok s1 =>
      rw [h1] at hstep
      cases h2 : stepBatch svc cp ni nc b si st2 i with
      | error e2 => rw [h2] at hstep; simp [Except.map] at hstep
      | ok s2 =>
        rw [h2] at hstep
        simp [Except.map] at hstep
        exact ih s1 s2 hstep

theorem runRecords_eq_of_map_eq (x y : Except PyErr RunState)
    (h : x.map (fun s => s.records) = y.map (fun s => s.records)) :
    runRecords x = runRecords y := by
  cases x <;> cases y <;> simp [Except.map] at h <;> simp [runRecords, h]

theorem runLoop_append_ok (f : RunState → Nat → Except PyErr RunState)
    (l1 l2 : List Nat) (st st1 : RunState) (h : runLoop f st l1 = .ok st1) :
    runLoop f st (l1 ++ l2) = runLoop f st1 l2 := by
  rw [runLoop_append, h]

/-- C1 (amended): if the run interrupted after `m` batches left a working
set whose completed count — the resume index a checkpoint load computes —
equals the `m * batch_size` records actually processed, then loading that
working set and running to completion yields the same final working set as
the uninterrupted run.  (The unamended claim fails when a processed record
holds a sentinel or empty label, because the resume index then falls short
and the resumed run re-batches from a shifted offset.) -/
theorem c1_resume_amended (svc : Service)
    (mc : List (String × List String)) (nc : List (String × Nat))
    (gc : List (String × List String)) (kws : List Record) (b si m : Nat)
    (hok : isOkB (partialRun svc mc nc gc kws b si m) = true)
    (hcomplete :
      countCompleted ((runRecords (partialRun svc mc nc gc kws b si m)).getD [])
        = m * (b + 1)) :
    runRecords (categorize_keywords svc mc nc gc
        ((runRecords (partialRun svc mc nc gc kws b si m)).getD [])
        (load_progress (some ((runRecords (partialRun svc mc nc gc kws b si m)).getD []))).2
        (b + 1) si)
      = runRecords (categorize_keywords svc mc nc gc kws 0 (b + 1) si) := by
  cases hst : partialRun svc mc nc gc kws b si m with
  | error e => rw [hst] at hok; simp [isOkB] at hok
  | ok st =>
    simp only [runRecords, Option.getD_some] at hcomplete ⊢
    have hst2 : runLoop
        (stepBatch svc (categoryPromptOf mc) (ngramInfoOf gc) nc b si)
        ⟨kws, [], []⟩ ((batchStarts b kws.length 0).take m) = .ok st := hst
    have hlen : st.records.length = kws.length :=
      (runLoop_trace svc (categoryPromptOf mc) (ngramInfoOf gc) nc b si
        ((batchStarts b kws.length 0).take m) ⟨kws, [], []⟩ st hst2).1
    have hload : (load_progress (some st.records)).2 = m * (b + 1) := by
      rw [hst] at hcomplete
      simp only [runRecords, Option.getD_some] at hcomplete
      simp [load_progress, hcomplete]
    rw [hload]
    simp only [categorize_keywords]
    have hsplit := runLoop_append_ok
      (stepBatch svc (categoryPromptOf mc) (ngramInfoOf gc) nc b si)
      ((batchStarts b kws.length 0).take m) ((batchStarts b kws.length 0).drop m)
      ⟨kws, [], []⟩ st hst2
    rw [List.take_append_drop] at hsplit
    rw [hsplit, batchStarts_drop b kws.length m 0]
    simp only [Nat.zero_add]
    rw [hlen]
    exact runRecords_eq_of_map_eq _ _
      (runLoop_records_congr svc (categoryPromptOf mc) (ngramInfoOf gc) nc b si
        (batchStarts b kws.length (m * (b + 1))) ⟨st.records, [], []⟩ st rfl)

theorem batchStarts_chain (b len : Nat) :
    ∀ i, List.Chain' (fun x y => x + (b + 1) ≤ y) (batchStarts b len i) := by
  have key : ∀ n i, len - i ≤ n →
      List.Chain' (fun x y => x + (b + 1) ≤ y) (batchStarts b len i) := by
    intro n
    induction n with
    | zero =>
      intro i hn
      rw [batchStarts_ge b len i (by omega)]
      exact List.chain'_nil
    | succ k ih =>
      intro i hn
      by_cases h : i < len
      · rw [batchStarts_lt b len i h]
        rw [List.chain'_cons']
        refine ⟨?_, ih (i + b + 1) (by omega)⟩
        intro y hy
        by_cases h2 : i + b + 1 < len
        · rw [batchStarts_lt b len _ h2] at hy
          simp at hy
          omega
        · rw [batchStarts_ge b len _ (by omega)] at hy
          simp at hy
      · rw [batchStarts_ge b len i (by omega)]
        exact List.chain'_nil
  intro i
  exact key len i (by omega)

/-- Concrete record used by the claim instances. -/
def demoRec (k : String) : Record :=
  { keyword := some k, intents := some "informational", position := some "1" }

/-- A service whose every call fails (transport error). -/
def svcDown : Service := fun _ => none

/-- C6 (amended): within a single run no retry ever happens — the service
is invoked exactly once per batch start, each call covers the batch's
slice of the working set as loaded (whose keyword texts never change), and
the batch starts advance by the batch size, so no record is submitted
twice.  (The unamended claim also asserted that a resumed run never
re-invokes the service for sentinel-marked records; that half is false:
the resume index counts only genuinely labelled records, so sentinel
records are re-submitted after a resume.) -/
theorem c6_no_retry_amended (svc : Service)
    (mc : List (String × List String)) (nc : List (String × Nat))
    (gc : List (String × List String)) (kws : List Record)
    (start b si : Nat)
    (h : isOkB (categorize_keywords svc mc nc gc kws start (b + 1) si) = true) :
    runCallTexts (categorize_keywords svc mc nc gc kws start (b + 1) si)
      = some ((batchStarts b kws.length start).map
          (fun i => (((kws.map fun r => r.keyword.getD "").drop i).take (b + 1)))) ∧
    List.Chain' (fun x y => x + (b + 1) ≤ y) (batchStarts b kws.length start) := by
  refine ⟨?_, batchStarts_chain b kws.length start⟩
  cases hrun : categorize_keywords svc mc nc gc kws start (b + 1) si with
  | error e => rw [hrun] at h; simp [isOkB] at h
  | ok st =>
    have hrun2 : runLoop
        (stepBatch svc (categoryPromptOf mc) (ngramInfoOf gc) nc b si)
        ⟨kws, [], []⟩ (batchStarts b kws.length start) = .ok st := hrun
    have htr := runLoop_trace svc (categoryPromptOf mc) (ngramInfoOf gc) nc b si
      (batchStarts b kws.length start) ⟨kws, [], []⟩ st hrun2
    simp only [runCallTexts]
    rw [htr.2.2.1]
    simp

/-- C8 (amended): a checkpoint is written after exactly those batches
whose end offset `i + batch_size` is divisible by `save_interval` or
reaches the end of the working set — so the final batch always
checkpoints, but the "every `save_interval` records" cadence only
materializes when the interval is aligned with the batch grid; in the
spec's 25-record, batch-10, interval-10 scenario the checkpoints fall
after records 10, 20 and 25. -/
theorem c8_schedule_amended (svc : Service)
    (mc : List (String × List String)) (nc : List (String × Nat))
    (gc : List (String × List String)) (kws : List Record)
    (start b si : Nat)
    (h : isOkB (categorize_keywords svc mc nc gc kws start (b + 1) si) = true) :
    runSaveStarts (categorize_keywords svc mc nc gc kws start (b + 1) si)
      = some ((batchStarts b kws.length start).filter
          (fun i => (((i + (b + 1)) % si == 0) || decide (kws.length ≤ i + (b + 1))))) := by
  cases hrun : categorize_keywords svc mc nc gc kws start (b + 1) si with
  | error e => rw [hrun] at h; simp [isOkB] at h
  | ok st =>
    have hrun2 : runLoop
        (stepBatch svc (categoryPromptOf mc) (ngramInfoOf gc) nc b si)
        ⟨kws, [], []⟩ (batchStarts b kws.length start) = .ok st := hrun
    have htr := runLoop_trace svc (categoryPromptOf mc) (ngramInfoOf gc) nc b si
      (batchStarts b kws.length start) ⟨kws, [], []⟩ st hrun2
    simp only [runSaveStarts]
    rw [htr.2.2.2]
    simp

/-- Four-keyword input for the C1 counterexample. -/
def c1Kws : List Record := [demoRec "k0", demoRec "k1", demoRec "k2", demoRec "k3"]

/-- Response with a single assignment (shorter than the batch). -/
def c1RespShort : String :=
  "[\x7b\"main_category\": \"A\", \"subcategory\": \"B\"\x7d]"

/-- Response with two \"C\"/\"D\" assignments. -/
def c1RespCD : String :=
  "[\x7b\"main_category\": \"C\", \"subcategory\": \"D\"\x7d, \x7b\"main_category\": \"C\", \"subcategory\": \"D\"\x7d]"

/-- Response with two \"E\"/\"F\" assignments. -/
def c1RespEF : String :=
  "[\x7b\"main_category\": \"E\", \"subcategory\": \"F\"\x7d, \x7b\"main_category\": \"E\", \"subcategory\": \"F\"\x7d]"

/-- Response with one \"G\"/\"H\" assignment. -/
def c1RespGH : String :=
  "[\x7b\"main_category\": \"G\", \"subcategory\": \"H\"\x7d]"

/-- A deterministic service keyed on the keyword texts of the batch: the
same batch always gets the same response, and differently-sliced batches
get independent responses. -/
def c1Svc : Service := fun p =>
  if p.metas.map (fun m => m.text) = ["k0", "k1"] then some c1RespShort
  else if p.metas.map (fun m => m.text) = ["k2", "k3"] then some c1RespCD
  else if p.metas.map (fun m => m.text) = ["k1", "k2"] then some c1RespEF
  else if p.metas.map (fun m => m.text) = ["k3"] then some c1RespGH
  else none

/-- The uninterrupted run of the C1 scenario: 4 records, batch size 2,
save interval 2. -/
def c1Full : Except PyErr RunState :=
  categorize_keywords c1Svc [] [] [] c1Kws 0 2 2

/-- The checkpoint written after the first batch of the uninterrupted
run. -/
def c1Snap : List Record := (runSnapshot 0 c1Full).getD []

/-- C1, counterexample: the first batch's parse is one assignment short,
so record 1 is padded with the sentinel; the checkpoint written at index 2
therefore counts only 1 completed record, the resumed run re-batches from
index 1 with shifted batch boundaries, equivalent batches no longer arise,
and — with the same deterministic service — the resumed final working set
differs from the uninterrupted one. -/
theorem c1_counterexample :
    runSaveStarts c1Full = some [0, 2] ∧
    (load_progress (some c1Snap)).2 = 1 ∧
    runMains (categorize_keywords c1Svc [] [] [] c1Snap
        (load_progress (some c1Snap)).2 2 2)
      = some [some (Json.str "A"), some (Json.str "E"),
              some (Json.str "E"), some (Json.str "G")] ∧
    runMains c1Full
      = some [some (Json.str "A"), some (Json.str "Uncategorized"),
              some (Json.str "C"), some (Json.str "C")] ∧
    runMains (categorize_keywords c1Svc [] [] [] c1Snap
        (load_progress (some c1Snap)).2 2 2)
      ≠ runMains c1Full := by
  refine ⟨by rfl, by rfl, by rfl, by rfl, ?_⟩
  intro hEq
  rw [show runMains (categorize_keywords c1Svc [] [] [] c1Snap
        (load_progress (some c1Snap)).2 2 2)
      = some [some (Json.str "A"), some (Json.str "E"),
              some (Json.str "E"), some (Json.str "G")] from by rfl,
    show runMains c1Full
      = some [some (Json.str "A"), some (Json.str "Uncategorized"),
              some (Json.str "C"), some (Json.str "C")] from by rfl] at hEq
  simp at hEq

/-- Service of the C1 witness: every call answers with one valid
assignment. -/
def c1WSvc : Service := fun _ => some c1RespShort

/-- One-record working set of the C1 witness. -/
def c1WKws : List Record := [demoRec "w0"]

/-- C1, witness: concrete instance of the amended resumability theorem
with batch size 1, one batch processed, and a fully labelled checkpoint. -/
theorem c1_resume_amended_witness :
    runRecords (categorize_keywords c1WSvc [] [] []
        ((runRecords (partialRun c1WSvc [] [] [] c1WKws 0 1 1)).getD [])
        (load_progress (some ((runRecords (partialRun c1WSvc [] [] [] c1WKws 0 1 1)).getD []))).2
        (0 + 1) 1)
      = runRecords (categorize_keywords c1WSvc [] [] [] c1WKws 0 (0 + 1) 1) :=
  c1_resume_amended c1WSvc [] [] [] c1WKws 0 1 1 (by rfl) (by rfl)

/-- Two-keyword input for the C6 counterexample. -/
def c6Kws : List Record := [demoRec "k0", demoRec "k1"]

/-- The run of the C6 counterexample: the only batch's service call fails,
so both records are sentinel-marked, and the final checkpoint snapshots
that state. -/
def c6Full : Except PyErr RunState :=
  categorize_keywords svcDown [] [] [] c6Kws 0 2 2

/-- The checkpoint of that run. -/
def c6Snap : List Record := (runSnapshot 0 c6Full).getD []

/-- C6, counterexample: after a failed batch is sentinel-marked and
checkpointed, the loader counts zero completed records, and the resumed
run re-invokes the external service for exactly those sentinel-marked
records — the claim said they would never be re-submitted. -/
theorem c6_counterexample :
    runMains c6Full = some [some uncategorized, some uncategorized] ∧
    (load_progress (some c6Snap)).2 = 0 ∧
    runCallTexts (categorize_keywords svcDown [] [] [] c6Snap
        (load_progress (some c6Snap)).2 2 2)
      = some [["k0", "k1"]] ∧
    runCallTexts (categorize_keywords svcDown [] [] [] c6Snap
        (load_progress (some c6Snap)).2 2 2)
      ≠ some [] := by
  refine ⟨by rfl, by rfl, by rfl, ?_⟩
  intro hEq
  rw [show runCallTexts (categorize_keywords svcDown [] [] [] c6Snap
        (load_progress (some c6Snap)).2 2 2)
      = some [["k0", "k1"]] from by rfl] at hEq
  simp at hEq

/-- C6, witness: concrete instance of the amended no-retry theorem — the
single run calls the service once per batch on disjoint slices. -/
theorem c6_no_retry_amended_witness :
    runCallTexts (categorize_keywords svcDown [] [] [] c6Kws 0 (1 + 1) 2)
      = some ((batchStarts 1 c6Kws.length 0).map
          (fun i => (((c6Kws.map fun r => r.keyword.getD "").drop i).take (1 + 1)))) ∧
    List.Chain' (fun x y => x + (1 + 1) ≤ y) (batchStarts 1 c6Kws.length 0) :=
  c6_no_retry_amended svcDown [] [] [] c6Kws 0 1 2 (by rfl)

/-- Thirty-keyword input for the C8 counterexample. -/
def c8Kws30 : List Record := (List.range 30).map (fun n => demoRec (toString n))

/-- C8, counterexample: with 30 records, batch size 10 and save interval
25, the only checkpoint of the whole run is the final one, written after
all 30 records — no checkpoint was triggered by the time 25 records
(one full save interval) had been processed, because no batch end offset
is divisible by 25. -/
theorem c8_counterexample :
    runSaveStarts (categorize_keywords svcDown [] [] [] c8Kws30 0 10 25)
      = some [20] ∧
    25 < 20 + 10 := by
  exact ⟨by rfl, by decide⟩

/-- Twenty-five-keyword input of the spec's checkpoint scenario. -/
def c8Kws25 : List Record := (List.range 25).map (fun n => demoRec (toString n))

/-- C8, witness: the amended schedule applied to the spec's scenario —
25 records, batch size 10, interval 10 — yields checkpoints after the
batches starting at 0, 10 and 20, i.e. after records 10, 20 and 25. -/
theorem c8_schedule_amended_witness :
    runSaveStarts (categorize_keywords svcDown [] [] [] c8Kws25 0 (9 + 1) 10)
      = some [0, 10, 20] := by
  have h := c8_schedule_amended svcDown [] [] [] c8Kws25 0 9 10 (by rfl)
  rw [h]
  rfl

theorem mapExcept_isErr {α β : Type} (f : α → Except PyErr β) :
    ∀ l : List α, isErrB (mapExcept f l) = true ↔ ∃ x ∈ l, isErrB (f x) = true := by
  intro l
  induction l with
  | nil => simp [mapExcept, isErrB]
  | cons x xs ih =>
    simp only [mapExcept]
    cases hx : f x with
    | error e =>
      simp only [isErrB]
      constructor
      · intro _; exact ⟨x, List.mem_cons_self x xs, by simp [hx, isErrB]⟩
      · intro _; trivial
    | ok y =>
      cases hr : mapExcept f xs with
      | error e =>
        simp only [isErrB]
        constructor
        · intro _
          obtain ⟨z, hz, hzerr⟩ := ih.mp (by simp [hr, isErrB])
          exact ⟨z, List.mem_cons_of_mem x hz, hzerr⟩
        · intro _; trivial
      | ok ys =>
        simp only [isErrB]
        constructor
        · intro hfalse; exact absurd hfalse (by simp)
        · intro ⟨z, hz, hzerr⟩
          rcases List.mem_cons.mp hz with hzx | hzxs
          · subst hzx; rw [hx] at hzerr; simp [isErrB] at hzerr
          · have := ih.mpr ⟨z, hzxs, hzerr⟩
            rw [hr] at this
            simp [isErrB] at this

/-- C4 (amended): `parse_categories` raises if and only if either the
whole response parses as a structured value that is neither a sequence
nor a mapping (`ValueError`), or the whole-text parse fails and some
brace-delimited fragment found by the regex scan is itself malformed
(the fragment's `json.loads` re-raises `JSONDecodeError`, uncaught).
With no structured content at all it returns the empty sequence without
raising, as the original claim said. -/
theorem c4_parse_error_amended (s : String) :
    isErrB (parse_categories s) = true ↔
      ((∃ v, json_loads s = some v ∧ wrongShape v = true) ∨
       (json_loads s = none ∧ ∃ f ∈ findallBraces s.toList, json_loads f = none)) := by
  simp only [parse_categories]
  cases hj : json_loads s with
  | some v => cases v <;> simp [isErrB, wrongShape]
  | none =>
    by_cases hfr : (findallBraces s.toList).isEmpty
    · rw [if_pos hfr]
      have hnil : findallBraces s.toList = [] := by
        cases hcase : findallBraces s.toList
        · rfl
        · rw [hcase] at hfr; simp at hfr
      simp only [isErrB]
      constructor
      · intro hfalse; exact absurd hfalse (by simp)
      · intro hr
        rcases hr with ⟨v, hv, _⟩ | ⟨_, z, hz, _⟩
        · exact absurd hv (by simp)
        · rw [hnil] at hz; exact absurd hz (by simp)
    · rw [if_neg hfr]
      rw [mapExcept_isErr]
      have hfrag : ∀ z : String,
          isErrB (match json_loads z with
            | some j => (Except.ok j : Except PyErr Json)
            | none => Except.error PyErr.jsonDecodeError) = true
            ↔ json_loads z = none := by
        intro z
        generalize json_loads z = o
        cases o <;> simp [isErrB]
      constructor
      · intro ⟨z, hz, hzerr⟩
        exact Or.inr ⟨rfl, z, hz, (hfrag z).mp hzerr⟩
      · intro hr
        rcases hr with ⟨v, hv, _⟩ | ⟨_, z, hz, hznone⟩
        · exact absurd hv (by simp)
        · exact ⟨z, hz, (hfrag z).mpr hznone⟩

/-- C4, counterexample: the text is not a parseable structured value, so
the claim says `parse` must return a (possibly empty) sequence without
raising; the brace scan finds the malformed fragment and `json.loads`
re-raises `JSONDecodeError`, which nothing in the function catches. -/
theorem c4_counterexample :
    json_loads "\x7bbad\x7d" = none ∧
    parse_categories "\x7bbad\x7d" = .error .jsonDecodeError :=
  ⟨by rfl, by rfl⟩

theorem lookupLast_append {α : Type} (l1 l2 : List (String × α)) (k : String) :
    lookupLast (l1 ++ l2) k =
      match lookupLast l2 k with
      | some v => some v
      | none => lookupLast l1 k := by
  induction l1 with
  | nil =>
    simp only [List.nil_append, lookupLast]
    cases lookupLast l2 k <;> rfl
  | cons e rest ih =>
    obtain ⟨k2, v⟩ := e
    show lookupLast ((k2, v) :: (rest ++ l2)) k = _
    simp only [lookupLast]
    rw [ih]
    cases lookupLast l2 k <;> cases lookupLast rest k <;> rfl

theorem lookupLast_filter_ne {α : Type} (l : List (String × α)) (p q : String)
    (h : q ≠ p) :
    lookupLast (l.filter fun e => e.1 ≠ p) q = lookupLast l q := by
  induction l with
  | nil => rfl
  | cons e rest ih =>
    obtain ⟨k2, v⟩ := e
    rw [List.filter_cons]
    by_cases hk : k2 = p
    · rw [if_neg (by simp [hk])]
      rw [ih]
      show _ = lookupLast ((k2, v) :: rest) q
      simp only [lookupLast]
      cases hrest : lookupLast rest q with
      | some r => rfl
      | none => rw [if_neg (fun hq => h (by rw [← hq, hk]))]
    · rw [if_pos (by simp [hk])]
      show lookupLast ((k2, v) :: (rest.filter fun e => e.1 ≠ p)) q
        = lookupLast ((k2, v) :: rest) q
      simp only [lookupLast]
      rw [ih]

theorem FS.get_set_eq (fs : FS) (p : String) (c : List Record) :
    (fs.set p c).get p = some c := by
  simp only [FS.get, FS.set]
  rw [lookupLast_append]
  simp [lookupLast]

theorem FS.get_set_ne (fs : FS) (p : String) (c : List Record) (q : String)
    (h : q ≠ p) :
    (fs.set p c).get q = fs.get q := by
  simp only [FS.get, FS.set]
  rw [lookupLast_append]
  simp only [lookupLast]
  rw [if_neg (fun hq => h (by rw [← hq]))]
  exact lookupLast_filter_ne fs.files p q h

theorem temp_name_ne (out : String) : temp_name out ≠ out := by
  intro h
  have hd := congrArg String.data h
  rw [temp_name, String.data_append] at hd
  have hlen := congrArg List.length hd
  rw [List.length_append] at hlen
  have h5 : ("temp_".data).length = 5 := rfl
  rw [h5] at hlen
  omega

/-- C7: checkpoint persistence is atomic.  Phase 1 writes the complete
working set to the temporary path and leaves the destination untouched, so
an interruption between the phases leaves the previously committed
checkpoint byte-identical and loadable; phase 2 atomically replaces the
destination with the complete new snapshot, so a reader of the destination
only ever observes the old checkpoint or the complete new one. -/
theorem c7_atomic_save (kws : List Record) (out : String) (fs : FS)
    (hne : kws ≠ []) :
    ∃ fs1, saveWriteTemp kws out fs = .ok fs1
      ∧ fs1.get out = fs.get out
      ∧ load_progress (fs1.get out) = load_progress (fs.get out)
      ∧ ∃ fs2, saveReplace out fs1 = .ok fs2
        ∧ fs2.get out = some kws
        ∧ save_progress kws out fs = .ok fs2 := by
  cases kws with
  | nil => exact absurd rfl hne
  | cons r rs =>
    have hget : (fs.set (temp_name out) (r :: rs)).get out = fs.get out :=
      FS.get_set_ne fs (temp_name out) (r :: rs) out (Ne.symm (temp_name_ne out))
    refine ⟨fs.set (temp_name out) (r :: rs), rfl, hget, by rw [hget], ?_⟩
    refine ⟨((fs.set (temp_name out) (r :: rs)).remove (temp_name out)).set out (r :: rs),
      ?_, FS.get_set_eq _ out _, ?_⟩
    · simp [saveReplace, FS.get_set_eq]
    · simp [save_progress, saveWriteTemp, saveReplace, FS.get_set_eq]

/-- C7, witness: the atomicity theorem applied to a one-record working
set, a named destination file, and an empty file system. -/
theorem c7_atomic_save_witness :
    ∃ fs1, saveWriteTemp [demoRec "p0"] "out.csv" ⟨[]⟩ = .ok fs1
      ∧ fs1.get "out.csv" = FS.get ⟨[]⟩ "out.csv"
      ∧ load_progress (fs1.get "out.csv") = load_progress (FS.get ⟨[]⟩ "out.csv")
      ∧ ∃ fs2, saveReplace "out.csv" fs1 = .ok fs2
        ∧ fs2.get "out.csv" = some [demoRec "p0"]
        ∧ save_progress [demoRec "p0"] "out.csv" ⟨[]⟩ = .ok fs2 :=
  c7_atomic_save [demoRec "p0"] "out.csv" ⟨[]⟩ (by simp)

/-- C10: calling `save_progress` with an empty working set raises
`IndexError` (the field names are taken from `keywords[0]`) before any
file is opened, so an empty working set is never persisted; conversely a
successful save always wrote the full, necessarily non-empty working set
to the destination. -/
theorem c10_empty_save :
    (∀ (out : String) (fs : FS), save_progress [] out fs = .error .indexError) ∧
    (∀ (kws : List Record) (out : String) (fs fs2 : FS),
      save_progress kws out fs = .ok fs2 →
      kws ≠ [] ∧ fs2.get out = some kws ∧ 1 ≤ kws.length) := by
  constructor
  · intro out fs; rfl
  · intro kws out fs fs2 h
    cases kws with
    | nil => simp [save_progress, saveWriteTemp] at h
    | cons r rs =>
      simp only [save_progress, saveWriteTemp] at h
      simp only [saveReplace, FS.get_set_eq] at h
      injection h with h
      refine ⟨by simp, ?_, by simp⟩
      rw [← h]
      exact FS.get_set_eq _ out _

/-- C10, witness: the theorem applied to the empty working set and to a
concrete successful one-record save. -/
theorem c10_empty_save_witness :
    save_progress [] "out.csv" ⟨[]⟩ = .error .indexError ∧
    ([demoRec "w1"] ≠ [] ∧
      FS.get ⟨[("out.csv", [demoRec "w1"])]⟩ "out.csv" = some [demoRec "w1"] ∧
      1 ≤ [demoRec "w1"].length) :=
  ⟨c10_empty_save.1 "out.csv" ⟨[]⟩,
   c10_empty_save.2 [demoRec "w1"] "out.csv" ⟨[]⟩
     ⟨[("out.csv", [demoRec "w1"])]⟩ (by rfl)⟩

/-- C5 (amended): an unreadable source is detected at load time and is
fatal — `read_csv` logs and re-raises.  An absent required column is NOT
detected at load time: `read_csv` performs no column validation and
returns the rows as-is; the failure is still fatal, but it surfaces only
when the first processed batch's prompt is built (outside the `try`
block), raising `KeyError` that aborts the run and propagates to the
caller. -/
theorem c5_load_failures_amended :
    read_csv none = .error .osError ∧
    (∀ rows : List Record, read_csv (some rows) = .ok rows) ∧
    (∀ (svc : Service) (mc : List (String × List String))
       (nc : List (String × Nat)) (gc : List (String × List String))
       (kws : List Record) (start b si : Nat),
      start < kws.length →
      (∀ r ∈ kws, r.keyword = none) →
      categorize_keywords svc mc nc gc kws start (b + 1) si
        = .error (.keyError "Keyword")) := by
  refine ⟨rfl, fun rows => rfl, ?_⟩
  intro svc mc nc gc kws start b si hstart hcol
  simp only [categorize_keywords]
  rw [batchStarts_lt b kws.length start hstart]
  simp only [runLoop]
  have hbatch : ∃ r tl, (kws.drop start).take (b + 1) = r :: tl ∧ r ∈ kws := by
    cases hcase : kws.drop start with
    | nil =>
      have hlen := congrArg List.length hcase
      rw [List.length_drop] at hlen
      simp at hlen
      omega
    | cons r tl =>
      refine ⟨r, tl.take b, rfl, ?_⟩
      have hmem : r ∈ kws.drop start := by
        rw [hcase]; exact List.mem_cons_self r tl
      exact List.drop_subset start kws hmem
  obtain ⟨r, tl, hrt, hrmem⟩ := hbatch
  have hkw := hcol r hrmem
  have hmeta : mapExcept (buildMeta nc) ((kws.drop start).take (b + 1))
      = .error (.keyError "Keyword") := by
    rw [hrt]
    simp only [mapExcept, buildMeta, hkw]
  have hstep : stepBatch svc (categoryPromptOf mc) (ngramInfoOf gc) nc b si
      ⟨kws, [], []⟩ start = .error (.keyError "Keyword") := by
    simp only [stepBatch]
    rw [categorizeBatch_err svc (categoryPromptOf mc) (ngramInfoOf gc) nc _ _ hmeta]
  rw [hstep]

/-- Row of the C5 counterexample: the required `Position` column is
absent. -/
def c5Rec : Record := { keyword := some "k", intents := some "i" }

/-- C5, counterexample: the malformed input is accepted by `read_csv`
unvalidated — nothing is detected at load time, contradicting the claim —
and the failure surfaces only when the first batch's prompt is built. -/
theorem c5_counterexample :
    read_csv (some [c5Rec]) = .ok [c5Rec] ∧
    categorize_keywords svcDown [] [] [] [c5Rec] 0 10 100
      = .error (.keyError "Position") :=
  ⟨rfl, by rfl⟩

/-- Row of the C5 witness: the keyword column is absent. -/
def c5WRec : Record := { intents := some "i", position := some "1" }

/-- C5, witness: the amended theorem applied to a one-row table whose
keyword column is absent. -/
theorem c5_load_failures_amended_witness :
    categorize_keywords svcDown [] [] [] [c5WRec] 0 (0 + 1) 1
      = .error (.keyError "Keyword") :=
  c5_load_failures_amended.2.2 svcDown [] [] [] [c5WRec] 0 0 1 (by decide)
    (by intro r hr; rw [List.mem_singleton] at hr; subst hr; rfl)

theorem padOf_zero (cs : List Json) : padOf cs 0 = [] := by
  simp [padOf]

theorem padOf_cons (c : Json) (cs : List Json) (n : Nat) :
    padOf (c :: cs) (n + 1) = c :: padOf cs n := by
  simp only [padOf, List.length_cons, Nat.succ_sub_succ]
  rfl

theorem padOf_nil_succ (n : Nat) :
    padOf [] (n + 1) = sentinelObj :: padOf [] n := by
  simp only [padOf, List.nil_append, List.length_nil, Nat.sub_zero,
    List.replicate_succ]
  rfl

theorem padOf_length (cs : List Json) (n : Nat) : (padOf cs n).length = n := by
  simp only [padOf, List.length_take, List.length_append, List.length_replicate]
  omega

theorem sentinelObj_wf : catWellFormed sentinelObj = true := by rfl

/-- Positional content of the claim-side dispatch rule: the j-th record
keeps its row and receives the j-th assignment's two values when the
parse yielded at least `j + 1` assignments, and the sentinel pair
otherwise. -/
theorem claimPositional_get (rs : List Record) :
    ∀ (cs : List Json) (j : Nat),
      (claimPositional rs cs).get? j = (rs.get? j).map (fun r =>
        match cs.get? j with
        | some c => { r with mainCategory := (c.getKey "main_category").toOption,
                             subcategory := (c.getKey "subcategory").toOption }
        | none => setSentinel r) := by
  induction rs with
  | nil => intro cs j; simp [claimPositional]
  | cons r rs2 ih =>
    intro cs j
    cases cs with
    | nil =>
      cases j with
      | zero => simp [claimPositional, setSentinel]
      | succ k =>
        simp only [claimPositional, List.get?_cons_succ]
        rw [ih [] k]
        rfl
    | cons c cs2 =>
      cases j with
      | zero => simp [claimPositional]
      | succ k =>
        simp only [claimPositional, List.get?_cons_succ]
        rw [ih cs2 k]

theorem applyCats_padOf (rs : List Record) :
    ∀ cs : List Json,
      (∀ c ∈ padOf cs rs.length, catWellFormed c = true) →
      applyCats rs (padOf cs rs.length) = .ok (claimPositional rs cs) := by
  induction rs with
  | nil =>
    intro cs _
    rw [show ([] : List Record).length = 0 from rfl, padOf_zero]
    rfl
  | cons r rs2 ih =>
    intro cs hwf
    cases cs with
    | nil =>
      rw [show (r :: rs2).length = rs2.length + 1 from rfl, padOf_nil_succ] at hwf ⊢
      simp only [applyCats]
      rw [show sentinelObj.getKey "main_category" = .ok uncategorized from rfl,
        show sentinelObj.getKey "subcategory" = .ok uncategorized from rfl,
        ih [] (fun c hc => hwf c (List.mem_cons_of_mem _ hc))]
      rfl
    | cons c cs2 =>
      rw [show (r :: rs2).length = rs2.length + 1 from rfl, padOf_cons] at hwf ⊢
      have hcwf : catWellFormed c = true := hwf c (List.mem_cons_self c _)
      simp only [catWellFormed, Bool.and_eq_true] at hcwf
      simp only [applyCats]
      cases hm : c.getKey "main_category" with
      | error e => rw [hm] at hcwf; simp [isOkB] at hcwf
      | ok m =>
        cases hs : c.getKey "subcategory" with
        | error e => rw [hs] at hcwf; simp [isOkB] at hcwf
        | ok sv =>
          rw [ih cs2 (fun c2 hc2 => hwf c2 (List.mem_cons_of_mem _ hc2))]
          simp only [claimPositional, hm, hs, Except.toOption]

theorem applyCats_isErr (rs : List Record) :
    ∀ cs : List Json, cs.length = rs.length →
      (∃ c ∈ cs, catWellFormed c = false) →
      isErrB (applyCats rs cs) = true := by
  induction rs with
  | nil =>
    intro cs hlen hbad
    rw [List.length_nil, List.length_eq_zero] at hlen
    subst hlen
    obtain ⟨c, hc, _⟩ := hbad
    exact absurd hc (by simp)
  | cons r rs2 ih =>
    intro cs hlen hbad
    cases cs with
    | nil => simp at hlen
    | cons c cs2 =>
      have hlen2 : cs2.length = rs2.length := by simpa using hlen
      simp only [applyCats]
      by_cases hcwf : catWellFormed c = true
      · obtain ⟨z, hz, hzbad⟩ := hbad
        have hz2 : z ∈ cs2 := by
          rcases List.mem_cons.mp hz with hzc | hzc
          · subst hzc; rw [hcwf] at hzbad; simp at hzbad
          · exact hzc
        have hih := ih cs2 hlen2 ⟨z, hz2, hzbad⟩
        cases hm : c.getKey "main_category" with
        | error e => simp [isErrB]
        | ok m =>
          cases hs : c.getKey "subcategory" with
          | error e => simp [isErrB]
          | ok sv =>
            cases ha : applyCats rs2 cs2 with
            | error e => simp [isErrB]
            | ok res => rw [ha] at hih; simp [isErrB] at hih
      · cases hm : c.getKey "main_category" with
        | error e => simp [isErrB]
        | ok m =>
          cases hs : c.getKey "subcategory" with
          | error e => simp [isErrB]
          | ok sv =>
            exfalso
            apply hcwf
            simp [catWellFormed, hm, hs, isOkB]

/-- C3 (amended): for a batch whose prompt metadata builds, the dispatch
is as the claim states — positional assignment with sentinel padding and
truncation — provided every effective assignment carries both category
keys; in addition to the claim's cases (failed call, parse raising, empty
parse of a non-empty batch via padding), an assignment missing a category
key poisons the whole batch: the `KeyError` is caught and every record of
the batch, including those whose assignments were valid, ends with the
sentinel pair.  The run continues either way. -/
theorem c3_batch_dispatch_amended (svc : Service) (cp ni : String)
    (nc : List (String × Nat)) (batch : List Record) (metas : List RecordMeta)
    (hm : mapExcept (buildMeta nc) batch = .ok metas) :
    (svc ⟨cp, ni, metas⟩ = none →
      categorizeBatch svc cp ni nc batch
        = .ok (batch.map setSentinel, ⟨cp, ni, metas⟩)) ∧
    (∀ resp, svc ⟨cp, ni, metas⟩ = some resp →
      isErrB (parse_categories resp) = true →
      categorizeBatch svc cp ni nc batch
        = .ok (batch.map setSentinel, ⟨cp, ni, metas⟩)) ∧
    (∀ resp cats, svc ⟨cp, ni, metas⟩ = some resp →
      parse_categories resp = .ok cats →
      (∀ c ∈ padOf cats batch.length, catWellFormed c = true) →
      categorizeBatch svc cp ni nc batch
        = .ok (claimPositional batch cats, ⟨cp, ni, metas⟩)) ∧
    (∀ resp cats, svc ⟨cp, ni, metas⟩ = some resp →
      parse_categories resp = .ok cats →
      (∃ c ∈ padOf cats batch.length, catWellFormed c = false) →
      categorizeBatch svc cp ni nc batch
        = .ok (batch.map setSentinel, ⟨cp, ni, metas⟩)) := by
  refine ⟨?_, ?_, ?_, ?_⟩
  · intro hsvc
    simp [categorizeBatch, hm, hsvc]
  · intro resp hsvc herr
    cases hp : parse_categories resp with
    | error e => simp [categorizeBatch, hm, hsvc, hp]
    | ok cats => rw [hp] at herr; simp [isErrB] at herr
  · intro resp cats hsvc hp hwf
    have happ := applyCats_padOf batch cats hwf
    simp [categorizeBatch, hm, hsvc, hp, happ]
  · intro resp cats hsvc hp hbad
    have herr := applyCats_isErr batch (padOf cats batch.length)
      (padOf_length cats batch.length) hbad
    cases ha : applyCats batch (padOf cats batch.length) with
    | error e => simp [categorizeBatch, hm, hsvc, hp, ha]
    | ok res => rw [ha] at herr; simp [isErrB] at herr

/-- Response of the C3 counterexample: a valid first assignment followed
by an element missing both category keys. -/
def c3Resp : String :=
  "[\x7b\"main_category\": \"A\", \"subcategory\": \"B\"\x7d, \x7b\"oops\": 1\x7d]"

/-- Service of the C3 counterexample. -/
def c3Svc : Service := fun _ => some c3Resp

/-- C3, counterexample: the parse yields two elements whose first is the
valid assignment (A, B), so the claim says record 0 ends with (A, B); but
applying the key-less second element raises `KeyError`, the `except`
branch overwrites the whole batch, and record 0 ends with the sentinel
instead. -/
theorem c3_counterexample :
    (parse_categories c3Resp).map (fun l =>
        l.map fun c => ((c.getKey "main_category").toOption,
                        (c.getKey "subcategory").toOption))
      = .ok [(some (Json.str "A"), some (Json.str "B")), (none, none)] ∧
    runMains (categorize_keywords c3Svc [] [] [] [demoRec "k0", demoRec "k1"] 0 2 2)
      = some [some uncategorized, some uncategorized] ∧
    (some uncategorized : Option Json) ≠ some (Json.str "A") := by
  refine ⟨by rfl, by rfl, ?_⟩
  intro h
  simp [uncategorized] at h

/-- Response of the C3 witness: one well-formed assignment for a
two-record batch. -/
def c3WResp : String :=
  "[\x7b\"main_category\": \"A\", \"subcategory\": \"B\"\x7d]"

/-- Service of the C3 witness. -/
def c3WSvc : Service := fun _ => some c3WResp

/-- C3, witness: the amended dispatch theorem applied to a short,
well-formed parse over a two-record batch — record 0 receives (A, B) and
record 1 the sentinel pair. -/
theorem c3_batch_dispatch_amended_witness :
    categorizeBatch c3WSvc "" "" [] [demoRec "k0", demoRec "k1"]
      = .ok (claimPositional [demoRec "k0", demoRec "k1"]
          [Json.obj [("main_category", Json.str "A"), ("subcategory", Json.str "B")]],
        ⟨"", "", [⟨"k0", "informational", "N/A", "1", 0⟩,
                  ⟨"k1", "informational", "N/A", "1", 0⟩]⟩) :=
  (c3_batch_dispatch_amended c3WSvc "" "" [] [demoRec "k0", demoRec "k1"]
      [⟨"k0", "informational", "N/A", "1", 0⟩, ⟨"k1", "informational", "N/A", "1", 0⟩]
      (by rfl)).2.2.1 c3WResp
    [Json.obj [("main_category", Json.str "A"), ("subcategory", Json.str "B")]]
    (by rfl) (by rfl) (by decide)

theorem splitChars_ne_nil (p : Char → Bool) : ∀ cs, splitChars p cs ≠ [] := by
  intro cs
  induction cs with
  | nil => simp [splitChars]
  | cons c rest ih =>
    simp only [splitChars]
    by_cases hc : p c
    · simp [hc]
    · simp only [hc, if_false]
      cases hsp : splitChars p rest with
      | nil => simp
      | cons h t => simp

theorem splitChars_head (p : Char → Bool) :
    ∀ cs, (splitChars p cs).head? = some (cs.takeWhile (fun c => ! p c)) := by
  intro cs
  induction cs with
  | nil => simp [splitChars]
  | cons c rest ih =>
    simp only [splitChars, List.takeWhile_cons]
    by_cases hc : p c
    · simp [hc]
    · simp only [hc, if_false, Bool.not_false, if_true]
      cases hsp : splitChars p rest with
      | nil => exact absurd hsp (splitChars_ne_nil p rest)
      | cons h t =>
        rw [hsp] at ih
        simp at ih
        simp [ih]

theorem splitChars_second (p : Char → Bool) :
    ∀ cs, (∃ c ∈ cs, p c = true) →
      (splitChars p cs).get? 1
        = some (((cs.dropWhile (fun c => ! p c)).tail).takeWhile (fun c => ! p c)) := by
  intro cs
  induction cs with
  | nil => intro ⟨c, hc, _⟩; simp at hc
  | cons c rest ih =>
    intro hex
    by_cases hc : p c
    · have hc1 : p c = true := hc
      simp only [splitChars, List.dropWhile_cons, hc1, if_true, Bool.not_true,
        Bool.false_eq_true, if_false, List.tail_cons]
      rw [List.get?_cons_succ]
      cases hsp : splitChars p rest with
      | nil => exact absurd hsp (splitChars_ne_nil p rest)
      | cons h t =>
        have hh := splitChars_head p rest
        rw [hsp] at hh
        simp at hh
        simp [hh]
    · have hc0 : p c = false := by simpa using hc
      have hex2 : ∃ d ∈ rest, p d = true := by
        obtain ⟨d, hd, hdp⟩ := hex
        rcases List.mem_cons.mp hd with h1 | h1
        · subst h1; rw [hc0] at hdp; exact absurd hdp (by simp)
        · exact ⟨d, h1, hdp⟩
      cases hsp : splitChars p rest with
      | nil => exact absurd hsp (splitChars_ne_nil p rest)
      | cons h t =>
        have hih := ih hex2
        rw [hsp, List.get?_cons_succ] at hih
        simp only [splitChars, List.dropWhile_cons, hc0, Bool.false_eq_true,
          if_false, Bool.not_false, if_true, hsp]
        rw [List.get?_cons_succ]
        exact hih

theorem neq_dollar_pred :
    (fun c : Char => (decide (c ≠ '$'))) = fun c : Char => ! (decide (c = '$')) := by
  funext c
  simp [decide_not]

theorem pySplit_price (kw : String) (h : kw.toList.contains '$' = true) :
    (pySplit '$' kw).getD 1 ""
      = String.mk (((kw.toList.dropWhile (fun c => c ≠ '$')).tail).takeWhile
          (fun c => c ≠ '$')) := by
  have hmem : '$' ∈ kw.toList := by simpa using h
  have hex : ∃ c ∈ kw.toList, (decide (c = '$')) = true := ⟨'$', hmem, by simp⟩
  have hsecond := splitChars_second (fun c : Char => decide (c = '$')) kw.toList hex
  simp only [pySplit, List.getD_eq_getD_get?, List.get?_map, hsecond]
  rw [neq_dollar_pred]
  rfl

theorem ngramTally_sum (nc : List (String × Nat)) (kw : String) :
    ngramTally nc kw
      = ((pySplitWs (pyLower kw)).map fun t => (lookupLast nc t).getD 0).sum := by
  have key : ∀ (l : List String) (acc : Nat),
      ((l.filter fun t => (lookupLast nc t).isSome).foldl
        (fun a t => a + (lookupLast nc t).getD 0) acc)
        = acc + (l.map fun t => (lookupLast nc t).getD 0).sum := by
    intro l
    induction l with
    | nil => intro acc; simp
    | cons t ts ih =>
      intro acc
      rw [List.filter_cons]
      by_cases ht : (lookupLast nc t).isSome
      · rw [if_pos (by simp [ht])]
        simp only [List.foldl_cons]
        rw [ih]
        simp only [List.map_cons, List.sum_cons]
        omega
      · rw [if_neg (by simp [ht])]
        rw [ih]
        have h0 : (lookupLast nc t).getD 0 = 0 := by
          cases hl : lookupLast nc t
          · rfl
          · rw [hl] at ht; simp at ht
        simp [List.map_cons, List.sum_cons, h0]
  simp only [ngramTally]
  rw [key]
  simp

/-- C9 (amended): for every record of a batch whose metadata builds, the
payload's per-record entry holds the record's text, intent and position
verbatim, a price token equal to a dollar sign followed by the text
strictly between the first dollar sign and the next one (to the end of
the text if there is no second dollar sign; the not-available marker when
the text has no dollar sign at all), and an n-gram figure equal to the
sum, over the whitespace-separated tokens of the lowercased text counted
with multiplicity, of the hint-table frequency of each token (tokens
absent from the table contribute zero; hint strings that are mere
substrings of the text do not count). -/
theorem c9_metadata_amended (svc : Service) (cp ni : String)
    (nc : List (String × Nat)) (batch nb : List Record) (p : Payload)
    (h : categorizeBatch svc cp ni nc batch = .ok (nb, p))
    (j : Nat) (r : Record) (hr : batch.get? j = some r)
    (kw it pos : String) (hkw : r.keyword = some kw) (hit : r.intents = some it)
    (hpos : r.position = some pos) :
    p.metas.get? j = some ⟨kw, it,
      (if kw.toList.contains '$'
       then "$" ++ String.mk (((kw.toList.dropWhile (fun c => c ≠ '$')).tail).takeWhile
         (fun c => c ≠ '$'))
       else "N/A"),
      pos,
      ((pySplitWs (pyLower kw)).map fun t => (lookupLast nc t).getD 0).sum⟩ := by
  obtain ⟨metas, hmE, hpE⟩ := categorizeBatch_payload svc cp ni nc batch nb p h
  obtain ⟨y, hy, hget⟩ := mapExcept_get (buildMeta nc) batch metas hmE j r hr
  simp only [buildMeta, hkw, hit, hpos] at hy
  rw [hpE]
  show metas.get? j = _
  injection hy with hy2
  rw [hget, ← hy2]
  have hprice : priceInfo kw
      = (if kw.toList.contains '$'
         then "$" ++ String.mk (((kw.toList.dropWhile (fun c => c ≠ '$')).tail).takeWhile
           (fun c => c ≠ '$'))
         else "N/A") := by
    simp only [priceInfo]
    by_cases hc : kw.toList.contains '$'
    · rw [if_pos hc, if_pos hc, pySplit_price kw hc]
    · rw [if_neg hc, if_neg hc]
  rw [hprice, ngramTally_sum]

/-- Record of the C9 counterexample: the text holds two dollar signs. -/
def c9Rec : Record :=
  { keyword := some "gold ring $50 to $99", intents := some "buy",
    position := some "3" }

/-- Record of the C9 counterexample whose text embeds a hint string as a
substring without it being a whitespace token. -/
def c9Rec2 : Record :=
  { keyword := some "diamondring", intents := some "buy", position := some "3" }

/-- Hint table of the C9 counterexample. -/
def c9Counts : List (String × Nat) := [("ring", 5)]

/-- C9, counterexample: the built metadata's price token is the dollar
segment truncated at the second dollar sign — not the substring following
the first dollar sign, which would be `50 to $99` — and its n-gram figure
counts whitespace tokens of the lowercased text rather than literal
substrings, so the hint `ring`, a substring of `diamondring` worth 5,
contributes nothing. -/
theorem c9_counterexample :
    buildMeta c9Counts c9Rec
      = .ok ⟨"gold ring $50 to $99", "buy", "$50 to ", "3", 5⟩ ∧
    claimPrice "gold ring $50 to $99" = "50 to $99" ∧
    ("$50 to " : String) ≠ "50 to $99" ∧
    buildMeta c9Counts c9Rec2 = .ok ⟨"diamondring", "buy", "N/A", "3", 0⟩ ∧
    claimTally c9Counts "diamondring" = 5 ∧
    (0 : Nat) ≠ 5 :=
  ⟨by rfl, by rfl, by decide, by rfl, by rfl, by decide⟩

/-- C9, witness: the amended metadata theorem applied to the concrete
two-dollar-sign record. -/
theorem c9_metadata_amended_witness :
    (⟨"", "", [⟨"gold ring $50 to $99", "buy", "$50 to ", "3", 5⟩]⟩ : Payload).metas.get? 0
      = some ⟨"gold ring $50 to $99", "buy",
          (if "gold ring $50 to $99".toList.contains '$'
           then "$" ++ String.mk ((("gold ring $50 to $99".toList.dropWhile
             (fun c => c ≠ '$')).tail).takeWhile (fun c => c ≠ '$'))
           else "N/A"),
          "3",
          ((pySplitWs (pyLower "gold ring $50 to $99")).map
            fun t => (lookupLast c9Counts t).getD 0).sum⟩ :=
  c9_metadata_amended svcDown "" "" c9Counts [c9Rec] [setSentinel c9Rec]
    ⟨"", "", [⟨"gold ring $50 to $99", "buy", "$50 to ", "3", 5⟩]⟩ (by rfl)
    0 c9Rec (by rfl) "gold ring $50 to $99" "buy" "3" rfl rfl rfl

theorem goodRec_setSentinel (r : Record) : goodRec (setSentinel r) :=
  ⟨⟨"Uncategorized", rfl, by decide⟩, ⟨"Uncategorized", rfl, by decide⟩⟩

theorem sentinelObj_goodVals :
    (∀ v, sentinelObj.getKey "main_category" = .ok v → ∃ s, v = Json.str s ∧ s ≠ "") ∧
    (∀ v, sentinelObj.getKey "subcategory" = .ok v → ∃ s, v = Json.str s ∧ s ≠ "") := by
  constructor
  · intro v hv
    rw [show sentinelObj.getKey "main_category" = .ok uncategorized from rfl] at hv
    injection hv with hv
    exact ⟨"Uncategorized", hv.symm, by decide⟩
  · intro v hv
    rw [show sentinelObj.getKey "subcategory" = .ok uncategorized from rfl] at hv
    injection hv with hv
    exact ⟨"Uncategorized", hv.symm, by decide⟩

theorem padOf_mem (cats : List Json) (n : Nat) :
    ∀ c ∈ padOf cats n, c ∈ cats ∨ c = sentinelObj := by
  intro c hc
  simp only [padOf] at hc
  have hc2 := List.take_subset n _ hc
  rcases List.mem_append.mp hc2 with h1 | h1
  · exact Or.inl h1
  · exact Or.inr (List.eq_of_mem_replicate h1)

theorem applyCats_good (rs : List Record) :
    ∀ (cs : List Json) (res : List Record), applyCats rs cs = .ok res →
      cs.length = rs.length →
      (∀ c ∈ cs,
        (∀ v, c.getKey "main_category" = .ok v → ∃ s, v = Json.str s ∧ s ≠ "") ∧
        (∀ v, c.getKey "subcategory" = .ok v → ∃ s, v = Json.str s ∧ s ≠ "")) →
      ∀ r ∈ res, goodRec r := by
  induction rs with
  | nil =>
    intro cs res h hlen _
    rw [List.length_nil, List.length_eq_zero] at hlen
    subst hlen
    simp only [applyCats] at h
    injection h with h
    subst h
    intro r hr
    exact absurd hr (by simp)
  | cons r0 rs2 ih =>
    intro cs res h hlen hvals
    cases cs with
    | nil => simp at hlen
    | cons c cs2 =>
      have hlen2 : cs2.length = rs2.length := by simpa using hlen
      simp only [applyCats] at h
      cases hm : c.getKey "main_category" with
      | error e => rw [hm] at h; simp at h
      | ok m =>
        rw [hm] at h
        cases hs : c.getKey "subcategory" with
        | error e => rw [hs] at h; simp at h
        | ok sv =>
          rw [hs] at h
          cases ha : applyCats rs2 cs2 with
          | error e => rw [ha] at h; simp at h
          | ok rest =>
            rw [ha] at h
            simp at h
            subst h
            intro r hr
            rcases List.mem_cons.mp hr with h1 | h1
            · subst h1
              have hc := hvals c (List.mem_cons_self c _)
              obtain ⟨sm, hsm, hsmne⟩ := hc.1 m hm
              obtain ⟨ss, hss, hssne⟩ := hc.2 sv hs
              exact ⟨⟨sm, by simp [hsm], hsmne⟩, ⟨ss, by simp [hss], hssne⟩⟩
            · exact ih cs2 rest ha hlen2
                (fun c2 hc2 => hvals c2 (List.mem_cons_of_mem _ hc2)) r h1

theorem map_setSentinel_good (batch : List Record) :
    ∀ r ∈ batch.map setSentinel, goodRec r := by
  intro r hr
  obtain ⟨r0, _, hr0⟩ := List.mem_map.mp hr
  rw [← hr0]
  exact goodRec_setSentinel r0

theorem categorizeBatch_good (svc : Service) (cp ni : String)
    (nc : List (String × Nat)) (hgood : goodResponses svc)
    (batch nb : List Record) (p : Payload)
    (h : categorizeBatch svc cp ni nc batch = .ok (nb, p)) :
    ∀ r ∈ nb, goodRec r := by
  simp only [categorizeBatch] at h
  cases hm : mapExcept (buildMeta nc) batch with
  | error e => rw [hm] at h; simp at h
  | ok metas =>
    rw [hm] at h
    simp at h
    rw [← h.1]
    cases hsvc : svc ⟨cp, ni, metas⟩ with
    | none => exact map_setSentinel_good batch
    | some resp =>
      show ∀ r ∈ (match parse_categories resp with
        | Except.error _ => batch.map setSentinel
        | Except.ok cats =>
          match applyCats batch (padOf cats batch.length) with
          | Except.ok nb2 => nb2
          | Except.error _ => batch.map setSentinel), goodRec r
      cases hp : parse_categories resp with
      | error e => exact map_setSentinel_good batch
      | ok cats =>
        show ∀ r ∈ (match applyCats batch (padOf cats batch.length) with
          | Except.ok nb2 => nb2
          | Except.error _ => batch.map setSentinel), goodRec r
        cases ha : applyCats batch (padOf cats batch.length) with
        | error e => exact map_setSentinel_good batch
        | ok res =>
          show ∀ r ∈ res, goodRec r
          refine applyCats_good batch (padOf cats batch.length) res ha
            (padOf_length cats batch.length) ?_
          intro c hc
          rcases padOf_mem cats batch.length c hc with h1 | h1
          · exact hgood ⟨cp, ni, metas⟩ resp cats hsvc hp c h1
          · rw [h1]; exact sentinelObj_goodVals

theorem take_append_eq_of_le {α : Type} (A B C : List α) (q : Nat)
    (hq : q ≤ A.length) :
    (A ++ B).take q = (A ++ C).take q := by
  rw [List.take_append_eq_append_take, List.take_append_eq_append_take]
  have h0 : q - A.length = 0 := by omega
  rw [h0]
  simp

theorem stepBatch_take (svc : Service) (cp ni : String)
    (nc : List (String × Nat)) (b si : Nat) (st st1 : RunState) (i q : Nat)
    (hq : q ≤ i)
    (h : stepBatch svc cp ni nc b si st i = .ok st1) :
    st1.records.take q = st.records.take q := by
  obtain ⟨nb, p, hc, hsi, hrec, _, _⟩ := stepBatch_ok svc cp ni nc b si st st1 i h
  have hnb := categorizeBatch_len svc cp ni nc _ nb p hc
  by_cases hlen : i ≤ st.records.length
  · have hM : st.records
        = st.records.take i
          ++ ((st.records.drop i).take (b + 1) ++ st.records.drop (i + (b + 1))) := by
      rw [← List.append_assoc]
      exact (take_take_drop_id st.records i (b + 1)).symm
    rw [hrec, List.append_assoc]
    conv_rhs => rw [hM]
    apply take_append_eq_of_le
    rw [List.length_take]
    omega
  · have hbatch0 : (st.records.drop i).take (b + 1) = [] := by
      rw [List.drop_eq_nil_of_le (by omega)]
      rfl
    have hnb0 : nb = [] := by
      rw [← List.length_eq_zero, hnb, hbatch0]
      rfl
    rw [hrec, hnb0, List.take_of_length_le (l := st.records) (by omega),
      List.drop_eq_nil_of_le (by omega)]
    simp

theorem batchStarts_mem_ge (b len : Nat) :
    ∀ j x, x ∈ batchStarts b len j → j ≤ x := by
  have key : ∀ n j x, len - j ≤ n → x ∈ batchStarts b len j → j ≤ x := by
    intro n
    induction n with
    | zero =>
      intro j x hn hx
      rw [batchStarts_ge b len j (by omega)] at hx
      exact absurd hx (by simp)
    | succ k ih =>
      intro j x hn hx
      by_cases h : j < len
      · rw [batchStarts_lt b len j h] at hx
        rcases List.mem_cons.mp hx with h1 | h1
        · omega
        · have := ih (j + b + 1) x (by omega) h1
          omega
      · rw [batchStarts_ge b len j (by omega)] at hx
        exact absurd hx (by simp)
  intro j x hx
  exact key len j x (by omega) hx

theorem runLoop_take (svc : Service) (cp ni : String)
    (nc : List (String × Nat)) (b si : Nat) :
    ∀ (starts : List Nat) (st st2 : RunState) (q : Nat),
      (∀ i ∈ starts, q ≤ i) →
      runLoop (stepBatch svc cp ni nc b si) st starts = .ok st2 →
      st2.records.take q = st.records.take q := by
  intro starts
  induction starts with
  | nil =>
    intro st st2 q _ h
    simp [runLoop] at h
    subst h
    rfl
  | cons i l ih =>
    intro st st2 q hall h
    simp only [runLoop] at h
    cases hs : stepBatch svc cp ni nc b si st i with
    | error e => rw [hs] at h; simp at h
    | ok st1 =>
      rw [hs] at h
      rw [ih st1 st2 q (fun x hx => hall x (List.mem_cons_of_mem _ hx)) h]
      exact stepBatch_take svc cp ni nc b si st st1 i q
        (hall i (List.mem_cons_self _ _)) hs

theorem splice_slice (M nb : List Record) (j k : Nat) (hj : j ≤ M.length)
    (hnb : nb.length = ((M.drop j).take k).length) :
    (((M.take j ++ nb) ++ M.drop (j + k)).take (j + k)).drop j = nb := by
  have hnb2 : nb.length = min k (M.length - j) := by
    rw [hnb, List.length_take, List.length_drop]
  have hA : (M.take j ++ nb).length = j + nb.length := by
    simp [List.length_take]
    omega
  have hAd : (M.take j ++ nb).drop j = nb := by
    rw [List.drop_append_eq_append_drop,
      List.drop_eq_nil_of_le (by rw [List.length_take]; omega), List.length_take]
    have h0 : j - min j M.length = 0 := by omega
    rw [h0]
    simp
  by_cases hfull : j + k ≤ M.length
  · have hAlen : (M.take j ++ nb).length = j + k := by
      rw [hA]; omega
    rw [List.take_append_eq_append_take, hAlen]
    simp only [Nat.sub_self]
    rw [List.take_of_length_le (by omega), List.take_zero, List.append_nil]
    exact hAd
  · have hD : M.drop (j + k) = [] := List.drop_eq_nil_of_le (by omega)
    rw [hD, List.append_nil, List.take_of_length_le (by rw [hA]; omega)]
    exact hAd

theorem runLoop_good (svc : Service) (cp ni : String)
    (nc : List (String × Nat)) (b si : Nat) (hgood : goodResponses svc)
    (L : Nat) :
    ∀ (n j : Nat) (st st2 : RunState), st.records.length = L → L - j ≤ n →
      runLoop (stepBatch svc cp ni nc b si) st (batchStarts b L j) = .ok st2 →
      ∀ r ∈ st2.records.drop j, goodRec r := by
  intro n
  induction n with
  | zero =>
    intro j st st2 hL hn h
    rw [batchStarts_ge b L j (by omega)] at h
    simp [runLoop] at h
    subst h
    intro r hr
    rw [List.drop_eq_nil_of_le (by omega)] at hr
    exact absurd hr (by simp)
  | succ k ih =>
    intro j st st2 hL hn h
    by_cases hj : j < L
    · rw [batchStarts_lt b L j hj] at h
      simp only [runLoop] at h
      cases hs : stepBatch svc cp ni nc b si st j with
      | error e => rw [hs] at h; simp at h
      | ok st1 =>
        rw [hs] at h
        have hlen1 : st1.records.length = L := by
          rw [stepBatch_len svc cp ni nc b si st st1 j hs, hL]
        have hrest := ih (j + b + 1) st1 st2 hlen1 (by omega) h
        have htake : st2.records.take (j + b + 1) = st1.records.take (j + b + 1) :=
          runLoop_take svc cp ni nc b si (batchStarts b L (j + b + 1)) st1 st2
            (j + b + 1) (batchStarts_mem_ge b L (j + b + 1)) h
        intro r hr
        have hsplit : st2.records.drop j
            = (st2.records.drop j).take (b + 1) ++ st2.records.drop (j + (b + 1)) := by
          conv_lhs => rw [← List.take_append_drop (b + 1) (st2.records.drop j)]
          rw [List.drop_drop]
        rw [hsplit] at hr
        rcases List.mem_append.mp hr with h1 | h1
        · have heq : (st2.records.drop j).take (b + 1)
              = (st2.records.take (j + b + 1)).drop j := by
            rw [List.drop_take]
            have he : j + b + 1 - j = b + 1 := by omega
            rw [he]
          rw [heq, htake] at h1
          obtain ⟨nb, p, hc, hsi, hrec, _, _⟩ :=
            stepBatch_ok svc cp ni nc b si st st1 j hs
          have hnb := categorizeBatch_len svc cp ni nc _ nb p hc
          have hslice : (st1.records.take (j + b + 1)).drop j = nb := by
            rw [hrec]
            have he2 : j + b + 1 = j + (b + 1) := by omega
            rw [he2]
            exact splice_slice st.records nb j (b + 1) (by omega) hnb
          rw [hslice] at h1
          exact categorizeBatch_good svc cp ni nc hgood _ nb p hc r h1
        · have he : j + (b + 1) = j + b + 1 := by omega
          rw [he] at h1
          exact hrest r h1
    · rw [batchStarts_ge b L j (by omega)] at h
      simp [runLoop] at h
      subst h
      intro r hr
      rw [List.drop_eq_nil_of_le (by omega)] at hr
      exact absurd hr (by simp)

/-- C2 (amended): when a run from index 0 terminates normally, every
record of the output working set carries both category fields, each set to
a non-empty string — provided every value the service's parsed assignments
expose at the two category keys is a non-empty string.  Without that
proviso the claim fails: the success path copies the parsed values
verbatim, so a response such as an empty-string label ends up in the
output unchanged. -/
theorem c2_nonempty_amended (svc : Service)
    (mc : List (String × List String)) (nc : List (String × Nat))
    (gc : List (String × List String)) (kws : List Record) (b si : Nat)
    (hgood : goodResponses svc)
    (hok : isOkB (categorize_keywords svc mc nc gc kws 0 (b + 1) si) = true) :
    ((runRecords (categorize_keywords svc mc nc gc kws 0 (b + 1) si)).getD []).Forall
      goodRec := by
  cases hrun : categorize_keywords svc mc nc gc kws 0 (b + 1) si with
  | error e => rw [hrun] at hok; simp [isOkB] at hok
  | ok st =>
    have hrun2 : runLoop
        (stepBatch svc (categoryPromptOf mc) (ngramInfoOf gc) nc b si)
        ⟨kws, [], []⟩ (batchStarts b kws.length 0) = .ok st := hrun
    have hg := runLoop_good svc (categoryPromptOf mc) (ngramInfoOf gc) nc b si
      hgood kws.length kws.length 0 ⟨kws, [], []⟩ st rfl (by omega) hrun2
    simp only [runRecords, Option.getD_some]
    rw [List.forall_iff_forall_mem]
    intro r hr
    exact hg r (by simpa using hr)

/-- Response of the C2 counterexample: syntactically valid assignments
whose labels are empty strings. -/
def c2Resp : String :=
  "[\x7b\"main_category\": \"\", \"subcategory\": \"\"\x7d]"

/-- Service of the C2 counterexample. -/
def c2Svc : Service := fun _ => some c2Resp

/-- C2, counterexample: a normally terminating run copies the parsed
empty-string labels into the output verbatim, so the only output record
has both category fields set to the empty string — not a genuine label
and not the sentinel. -/
theorem c2_counterexample :
    runRecords (categorize_keywords c2Svc [] [] [] [demoRec "k0"] 0 1 1)
      = some [{ keyword := some "k0", intents := some "informational",
                position := some "1", mainCategory := some (Json.str ""),
                subcategory := some (Json.str "") }] ∧
    ¬ goodRec { keyword := some "k0", intents := some "informational",
                position := some "1", mainCategory := some (Json.str ""),
                subcategory := some (Json.str "") } := by
  refine ⟨by rfl, ?_⟩
  intro ⟨⟨s, hs, hne⟩, _⟩
  injection hs with hs
  injection hs with hs
  exact hne hs.symm

/-- Response of the C2 witness: one well-formed non-empty assignment. -/
def c2WResp : String :=
  "[\x7b\"main_category\": \"A\", \"subcategory\": \"B\"\x7d]"

/-- Service of the C2 witness. -/
def c2WSvc : Service := fun _ => some c2WResp

/-- C2, witness: the amended invariant applied to a one-record run whose
service always answers with non-empty labels. -/
theorem c2_nonempty_amended_witness :
    ((runRecords (categorize_keywords c2WSvc [] [] [] [demoRec "w3"] 0 (0 + 1) 1)).getD
      []).Forall goodRec :=
  c2_nonempty_amended c2WSvc [] [] [] [demoRec "w3"] 0 1
    (by
      intro p resp cats hsvc hp c hc
      have hsvc2 : some c2WResp = some resp := hsvc
      injection hsvc2 with hresp
      subst hresp
      rw [show parse_categories c2WResp
          = .ok [Json.obj [("main_category", Json.str "A"),
                           ("subcategory", Json.str "B")]] from by rfl] at hp
      injection hp with hp
      subst hp
      rw [List.mem_singleton] at hc
      subst hc
      constructor
      · intro v hv
        rw [show (Json.obj [("main_category", Json.str "A"),
              ("subcategory", Json.str "B")]).getKey "main_category"
            = .ok (Json.str "A") from by rfl] at hv
        injection hv with hv
        exact ⟨"A", hv.symm, by decide⟩
      · intro v hv
        rw [show (Json.obj [("main_category", Json.str "A"),
              ("subcategory", Json.str "B")]).getKey "subcategory"
            = .ok (Json.str "B") from by rfl] at hv
        injection hv with hv
        exact ⟨"B", hv.symm, by decide⟩)
    (by rfl)
